import Mathlib

/-!
A verification development for the `circuitous` decoder compiler.

The repository is C++; the definitions below are a shallow embedding of the
functions the checked properties talk about.  Machine integers are modelled as
`Nat` (overflow is irrelevant on the checked paths: all the quantities involved
are small counters and bit-field values, and the bit-packing code is proved
against explicit `% 2 ^ w` arithmetic).  Fallible code returns `Option`.
Strings manipulated by the generated-code printer and by the structural hash
are modelled as `List Char`.
-/

namespace Circuitous

/-! # Memory-hint layout (`include/circuitous/IR/Memory.hpp`)

`Layout( ptr_size )` fixes the field widths `{1, 1, 6, 4, 4, P, P, 64}`.
`construct` walks the `(width, value)` pairs keeping a running bit offset
`current` and calls `insert(val, current, def)`; `parse` walks the widths
calling `extract(call, current, e_size)`.  The inserter/extractor pair is a
template parameter in the source; here it is instantiated with the bit-level
pair `insert v off w acc = acc + v * 2^off`, `extract x off w = x / 2^off % 2^w`,
i.e. each field occupies the bit range `[current, current + width)`. -/

def layout_defs (ptr_size : Nat) : List Nat :=
  [1, 1, 6, 4, 4, ptr_size, ptr_size, 64]

/-- `Layout::size()`: the sum of the field widths. -/
def layout_size (ptr_size : Nat) : Nat := (layout_defs ptr_size).sum

/-- The bit-range extractor: bits `[off, off + w)` of `x`. -/
def extractBits (x off w : Nat) : Nat := x / 2 ^ off % 2 ^ w

/-- `memory::construct`: iterate over `(width, value)` pairs, inserting each
value at the running offset `current` and advancing `current` by the width. -/
def constructFrom : List (Nat × Nat) → Nat → Nat
  | [], _ => 0
  | (w, v) :: rest, current => v * 2 ^ current + constructFrom rest (current + w)

def construct (ptr_size : Nat) (vals : List Nat) : Nat :=
  constructFrom ((layout_defs ptr_size).zip vals) 0

/-- `memory::parse`: extract one field per width at the running offset. -/
def parseFrom : List Nat → Nat → Nat → List Nat
  | [], _, _ => []
  | w :: ws, x, current => extractBits x current w :: parseFrom ws x (current + w)

def parse (ptr_size : Nat) (x : Nat) : List Nat :=
  parseFrom (layout_defs ptr_size) x 0

/-- A record is well formed when it has one value per field, each within the
range of its field width. -/
def WellFormedFields (ptr_size : Nat) (vals : List Nat) : Prop :=
  List.Forall₂ (fun w v => v < 2 ^ w) (layout_defs ptr_size) vals

instance (P : Nat) (vals : List Nat) : Decidable (WellFormedFields P vals) := by
  unfold WellFormedFields; infer_instance

/-- Little-endian view of `constructFrom`: chunk values packed lowest first. -/
def packLE : List Nat → List Nat → Nat
  | _, [] => 0
  | [], _ => 0
  | w :: ws, v :: vs => v + 2 ^ w * packLE ws vs

/-- Little-endian view of `parseFrom`. -/
def unpackLE : List Nat → Nat → List Nat
  | [], _ => []
  | w :: ws, x => x % 2 ^ w :: unpackLE ws (x / 2 ^ w)

lemma constructFrom_eq_packLE (ws vs : List Nat) (cur : Nat) :
    constructFrom (ws.zip vs) cur = 2 ^ cur * packLE ws vs := by
  induction ws generalizing vs cur with
  | nil => cases vs <;> simp [constructFrom, packLE]
  | cons w ws ih =>
    cases vs with
    | nil => simp [constructFrom, packLE]
    | cons v vs =>
      simp only [List.zip_cons_cons, constructFrom, packLE]
      rw [show List.zipWith Prod.mk ws vs = ws.zip vs from rfl, ih, pow_add]
      ring

lemma parseFrom_eq_unpackLE (ws : List Nat) (x cur : Nat) :
    parseFrom ws x cur = unpackLE ws (x / 2 ^ cur) := by
  induction ws generalizing cur with
  | nil => simp [parseFrom, unpackLE]
  | cons w ws ih =>
    simp only [parseFrom, unpackLE, extractBits, ih, Nat.div_div_eq_div_mul, pow_add]

lemma unpackLE_packLE (ws vs : List Nat)
    (hwf : List.Forall₂ (fun w v => v < 2 ^ w) ws vs) :
    unpackLE ws (packLE ws vs) = vs := by
  induction hwf with
  | nil => simp [packLE, unpackLE]
  | @cons w v ws vs hv _ ih =>
    have hw : 0 < 2 ^ w := Nat.pos_pow_of_pos _ (by norm_num)
    have h1 : (v + 2 ^ w * packLE ws vs) % 2 ^ w = v := by
      rw [Nat.add_mul_mod_self_left, Nat.mod_eq_of_lt hv]
    have h2 : (v + 2 ^ w * packLE ws vs) / 2 ^ w = packLE ws vs := by
      rw [Nat.add_mul_div_left _ _ hw, Nat.div_eq_of_lt hv, Nat.zero_add]
    simp only [packLE, unpackLE, h1, h2, ih]

lemma packLE_unpackLE (ws : List Nat) (x : Nat) (hx : x < 2 ^ ws.sum) :
    packLE ws (unpackLE ws x) = x := by
  induction ws generalizing x with
  | nil =>
    simp only [List.sum_nil, pow_zero, Nat.lt_one_iff] at hx
    simp [packLE, unpackLE, hx]
  | cons w ws ih =>
    have hw : 0 < 2 ^ w := Nat.pos_pow_of_pos _ (by norm_num)
    have hdiv : x / 2 ^ w < 2 ^ ws.sum := by
      rw [Nat.div_lt_iff_lt_mul hw, ← pow_add]
      simpa [Nat.add_comm] using hx
    simp only [unpackLE, packLE, ih _ hdiv]
    exact Nat.mod_add_div x (2 ^ w)

/-- **C3.** For pointer sizes `32` and `64` (the only ones `memory::make`
accepts), `parse ∘ construct` restores the 8 fields of any well-formed record,
`construct ∘ parse` restores any bit-string of the layout's total width
`16 + 2P + 64`, and the fields sit, in the fixed order
`used, mode, reserved, id, size, addr, value, timestamp`, at the successive
non-overlapping offsets `0, 1, 2, 8, 12, 16, 16+P, 16+2P`. -/
theorem memory_layout_roundtrip (P : Nat) (hP : P = 32 ∨ P = 64) :
    (∀ vals, WellFormedFields P vals → parse P (construct P vals) = vals)
    ∧ (∀ x, x < 2 ^ (16 + 2 * P + 64) → construct P (parse P x) = x)
    ∧ layout_size P = 16 + 2 * P + 64
    ∧ (∀ used mode reserved id size addr value timestamp,
        construct P [used, mode, reserved, id, size, addr, value, timestamp]
          = used * 2 ^ 0 + mode * 2 ^ 1 + reserved * 2 ^ 2 + id * 2 ^ 8
            + size * 2 ^ 12 + addr * 2 ^ 16 + value * 2 ^ (16 + P)
            + timestamp * 2 ^ (16 + 2 * P)) := by
  have hsum : (layout_defs P).sum = 16 + 2 * P + 64 := by
    simp [layout_defs]; omega
  refine ⟨?_, ?_, hsum, ?_⟩
  · intro vals hwf
    rw [construct, parse, constructFrom_eq_packLE, parseFrom_eq_unpackLE]
    simp only [pow_zero, one_mul, Nat.div_one]
    exact unpackLE_packLE _ _ hwf
  · intro x hx
    rw [construct, parse, constructFrom_eq_packLE, parseFrom_eq_unpackLE]
    simp only [pow_zero, one_mul, Nat.div_one]
    exact packLE_unpackLE _ _ (by rwa [hsum])
  · intro u m r i s a v t
    simp only [construct, layout_defs, List.zip_cons_cons, List.zip_nil_right,
      constructFrom]
    ring_nf

/-- Witness for `memory_layout_roundtrip` at `P = 64` on the spec's seed
record `{used=1, mode=0, reserved=0, id=3, size=4, addr=0xDEAD, value=0xBEEF,
ts=7}`. -/
theorem memory_layout_roundtrip_witness :
    parse 64 (construct 64 [1, 0, 0, 3, 4, 0xDEAD, 0xBEEF, 7])
      = [1, 0, 0, 3, 4, 0xDEAD, 0xBEEF, 7] :=
  (memory_layout_roundtrip 64 (Or.inr rfl)).1 _ (by decide)

/-! # Pass registry (`include/circuitous/Transforms/Passes.hpp`, `PassesBase`)

`known_passes` maps pass names to pass objects; the pass objects themselves
are irrelevant to name lookup and are represented by a tag per concrete pass
class.  `add_pass` looks the name up with `std::map::at`, which throws
`std::out_of_range` on a missing key — modelled as `Option` with `none` for
the throwing outcome. -/

inductive PassImpl where
  | equalitySaturationPass
  | mergeAdvicesPass
  | dummyPass
  | trivialConcatRemovalPass
  | trivialOrRemoval
  | removeIdentityPass
  | remillOFPatch
  | mergeAdviceConstraints
deriving DecidableEq

def known_passes : List (String × PassImpl) :=
  [ ("eqsat", .equalitySaturationPass),
    ("merge-advices", .mergeAdvicesPass),
    ("dummy-pass", .dummyPass),
    ("trivial-concat-removal", .trivialConcatRemovalPass),
    ("remove-trivial-or", .trivialOrRemoval),
    ("remove-identity", .removeIdentityPass),
    ("overflow-flag-fix", .remillOFPatch),
    ("merge-transitive-advices", .mergeAdviceConstraints) ]

/-- `known_passes.at(name)`: `none` models the `std::out_of_range` throw. -/
def known_passes_at (name : String) : Option PassImpl :=
  (known_passes.find? fun p => p.1 == name).map Prod.snd

/-- `PassesBase::add_pass`: look the pass up by name and append the named
pass to the pipeline; a missing name propagates the throw. -/
def add_pass (passes : List (String × PassImpl)) (name : String) :
    Option (List (String × PassImpl)) :=
  (known_passes_at name).map fun p => passes ++ [(name, p)]

/-- The three `add_pass` calls of `Decoder.cpp`'s `main`, in order. -/
def decoder_driver_pipeline : Option (List (String × PassImpl)) :=
  (add_pass [] "remove-transitive-advice").bind fun ps =>
    (add_pass ps "remove-identity").bind fun ps' =>
      add_pass ps' "remove-trivial-or"

/-- **C1.** The driver's first `add_pass` name is not a key of the registry:
`known_passes` spells the advice-merging pass `"merge-transitive-advices"`,
while `main` requests `"remove-transitive-advice"`, so `std::map::at` throws
and pipeline construction fails (the other two names are present). -/
theorem decoder_pipeline_pass_name_missing :
    known_passes_at "remove-transitive-advice" = none
    ∧ known_passes_at "merge-transitive-advices" = some .mergeAdviceConstraints
    ∧ known_passes_at "remove-identity" = some .removeIdentityPass
    ∧ known_passes_at "remove-trivial-or" = some .trivialOrRemoval
    ∧ decoder_driver_pipeline = none := by
  refine ⟨rfl, rfl, rfl, rfl, rfl⟩

/-! # Driver exit codes (`bin/decoder/Decoder.cpp`, `main`)

The driver's control flow over its outcome-relevant inputs: whether the CLI
parsed (and if so, whether `--help` / `--version` were present) and whether
`get_input_circuit` produced a circuit.  The later pipeline stages (optimizer,
SEG build, emission) are abstracted by a single flag, and the diagnostics the
driver prints are represented by tags.  The load-failure branch calls
`circ::unreachable()` (whose implementation is outside this repository's
sources) and then `return 3`; `Modelled from the spec:` an input-load failure
exits with code `3` and a diagnostic. -/

inductive OutMsg where
  | helpText
  | versionPlaceholder
  | loadFailureDiag
deriving DecidableEq

structure ParsedCli where
  has_help : Bool
  has_version : Bool
deriving DecidableEq

structure MainResult where
  exit_code : Nat
  to_stdout : List OutMsg
  to_stderr : List OutMsg
deriving DecidableEq

def main_model (cli : Option ParsedCli) (circuit_loads : Bool) : MainResult :=
  match cli with
  | none => ⟨1, [], [.helpText]⟩
  | some parsed =>
    if parsed.has_help then ⟨0, [.helpText], []⟩
    else if parsed.has_version then ⟨1, [], [.versionPlaceholder]⟩
    else if !circuit_loads then ⟨3, [], [.loadFailureDiag]⟩
    else ⟨0, [], []⟩

/-- **C8 (counterexample).** The claim says the help path returns `1`; the
driver's help path (`parsed_cli.present<Help>()`) returns `0`. -/
theorem decoder_help_path_returns_zero :
    (main_model (some ⟨true, false⟩) true).exit_code = 0
    ∧ (main_model (some ⟨true, false⟩) true).exit_code ≠ 1 := by
  exact ⟨rfl, by decide⟩

/-- **C8 (amended).** The driver returns `1` on a CLI parse failure (printing
the help string to stderr) and on the version path (printing a placeholder to
stderr); it returns `0` on the help path (printing the help string to stdout)
and on success; it exits `3` with a diagnostic when the input circuit cannot
be loaded. -/
theorem decoder_exit_codes (loads : Bool) :
    main_model none loads = ⟨1, [], [.helpText]⟩
    ∧ (∀ v : Bool, main_model (some ⟨true, v⟩) loads = ⟨0, [.helpText], []⟩)
    ∧ main_model (some ⟨false, true⟩) loads = ⟨1, [], [.versionPlaceholder]⟩
    ∧ main_model (some ⟨false, false⟩) false = ⟨3, [], [.loadFailureDiag]⟩
    ∧ main_model (some ⟨false, false⟩) true = ⟨0, [], []⟩ := by
  refine ⟨rfl, fun v => rfl, rfl, rfl, rfl⟩

/-! # Decimal rendering (`std::to_string`)

`SEGNode::get_hash` renders the child count with `std::to_string`.  The model
below produces the same decimal character sequence; the facts needed later are
that it never contains `'|'` and that it is injective. -/

def decVal (c : Char) : Nat :=
  match c with
  | '0' => 0 | '1' => 1 | '2' => 2 | '3' => 3 | '4' => 4
  | '5' => 5 | '6' => 6 | '7' => 7 | '8' => 8 | '9' => 9
  | _ => 10

/-- Fuel-driven base-10 digit list (least significant first), structurally
recursive so that concrete values reduce inside the kernel; with fuel `≥ n`
it agrees with `Nat.digits 10 n`. -/
def decDigitsAux : Nat → Nat → List Nat
  | 0, _ => []
  | fuel + 1, n => if n = 0 then [] else n % 10 :: decDigitsAux fuel (n / 10)

lemma decDigitsAux_eq_digits (fuel n : Nat) (h : n ≤ fuel) :
    decDigitsAux fuel n = Nat.digits 10 n := by
  induction fuel generalizing n with
  | zero =>
    have : n = 0 := Nat.le_zero.mp h
    simp [decDigitsAux, this]
  | succ fuel ih =>
    by_cases hn : n = 0
    · simp [decDigitsAux, hn]
    · have hpos : 0 < n := Nat.pos_of_ne_zero hn
      rw [decDigitsAux, if_neg hn, Nat.digits_def' (by norm_num : 1 < 10) hpos,
        ih _ (by omega)]

def decRepr (n : Nat) : List Char :=
  if n = 0 then ['0'] else ((decDigitsAux n n).map Nat.digitChar).reverse

lemma decRepr_eq_digits (n : Nat) :
    decRepr n
      = if n = 0 then ['0'] else ((Nat.digits 10 n).map Nat.digitChar).reverse := by
  rw [decRepr, decDigitsAux_eq_digits n n le_rfl]

def parseDec (cs : List Char) : Nat :=
  Nat.ofDigits 10 (cs.reverse.map decVal)

lemma decVal_digitChar {d : Nat} (hd : d < 10) : decVal (Nat.digitChar d) = d := by
  interval_cases d <;> rfl

lemma digitChar_ne_bar {d : Nat} (hd : d < 10) : Nat.digitChar d ≠ '|' := by
  interval_cases d <;> decide

lemma parseDec_decRepr (n : Nat) : parseDec (decRepr n) = n := by
  rw [decRepr_eq_digits]
  split
  · rename_i h
    subst h
    rfl
  · unfold parseDec
    rw [List.reverse_reverse, List.map_map]
    have h : (Nat.digits 10 n).map (decVal ∘ Nat.digitChar)
        = (Nat.digits 10 n).map (fun d => d) := by
      apply List.map_congr_left
      intro d hd
      exact decVal_digitChar (Nat.digits_lt_base (by norm_num) hd)
    rw [h, List.map_id']
    exact Nat.ofDigits_digits 10 n

lemma decRepr_inj : Function.Injective decRepr :=
  Function.LeftInverse.injective parseDec_decRepr

lemma bar_not_mem_decRepr (n : Nat) : '|' ∉ decRepr n := by
  rw [decRepr_eq_digits]
  split
  · decide
  · intro hmem
    rw [List.mem_reverse, List.mem_map] at hmem
    obtain ⟨d, hd, hchar⟩ := hmem
    exact digitChar_ne_bar (Nat.digits_lt_base (by norm_num) hd) hchar

/-! # SEG nodes (`lib/SEG/SEGMultiGraph.cpp`, `SEGNode`)

A `SEGNode` carries an ordered child list `_nodes` plus book-keeping fields.
The `_parents` back-links (which hold *copies* of nodes, see `add_child` /
`add_parent`) are treated separately in the pointer-level model further down;
the tree-of-children view below is what `get_hash`, `calculate_costs` and
`expr_for_node` traverse. -/

structure SelectOp where
  sel_id : Nat
  bits : Nat
deriving DecidableEq

structure SelectChoice where
  sel : SelectOp
  chosen_idx : Nat
deriving DecidableEq

structure InstructionProjection where
  vi : Nat
  root_in_vi : Nat
  select_choices : List SelectChoice
deriving DecidableEq

inductive SEGNode where
  | mk (id : List Char) (isRoot : Bool) (specializeble : Bool) (fd : Bool)
      (inline_cost : Nat) (subtree_count : Nat)
      (valid_for_contexts : List InstructionProjection)
      (nodes : List SEGNode)

def SEGNode.nodes : SEGNode → List SEGNode
  | .mk _ _ _ _ _ _ _ ns => ns

def SEGNode.fd : SEGNode → Bool
  | .mk _ _ _ fd _ _ _ _ => fd

def SEGNode.isRoot : SEGNode → Bool
  | .mk _ r _ _ _ _ _ _ => r

def SEGNode.inline_cost : SEGNode → Nat
  | .mk _ _ _ _ c _ _ _ => c

def SEGNode.subtree_count : SEGNode → Nat
  | .mk _ _ _ _ _ c _ _ => c

def SEGNode.valid_for_contexts : SEGNode → List InstructionProjection
  | .mk _ _ _ _ _ _ ctxs _ => ctxs

/-- `SEGNode::get_hash`: the decimal child count, a `'|'`, then the
concatenated hashes of the children in order. -/
def get_hash (n : SEGNode) : List Char :=
  match n with
  | .mk _ _ _ _ _ _ _ kids =>
    decRepr kids.length ++ '|' :: (kids.attach.map fun c => get_hash c.1).flatten
termination_by sizeOf n
decreasing_by
  have := List.sizeOf_lt_of_mem c.2
  simp only [SEGNode.mk.sizeOf_spec]
  omega

/-- The bare child-tree shape of a node: what remains of a `SEGNode` after
dropping every field except the recursive child structure. -/
inductive ShapeT where
  | mk (kids : List ShapeT)

def shapeOf (n : SEGNode) : ShapeT :=
  match n with
  | .mk _ _ _ _ _ _ _ kids => .mk (kids.attach.map fun c => shapeOf c.1)
termination_by sizeOf n
decreasing_by
  have := List.sizeOf_lt_of_mem c.2
  simp only [SEGNode.mk.sizeOf_spec]
  omega

def shapeHash (s : ShapeT) : List Char :=
  match s with
  | .mk kids =>
    decRepr kids.length ++ '|' :: (kids.attach.map fun c => shapeHash c.1).flatten
termination_by sizeOf s
decreasing_by
  have := List.sizeOf_lt_of_mem c.2
  simp only [ShapeT.mk.sizeOf_spec]
  omega

lemma get_hash_mk (id : List Char) (r sp fd : Bool) (ic sc : Nat)
    (ctxs : List InstructionProjection) (kids : List SEGNode) :
    get_hash (.mk id r sp fd ic sc ctxs kids)
      = decRepr kids.length ++ '|' :: (kids.map get_hash).flatten := by
  rw [get_hash]
  congr 1
  simp

lemma shapeOf_mk (id : List Char) (r sp fd : Bool) (ic sc : Nat)
    (ctxs : List InstructionProjection) (kids : List SEGNode) :
    shapeOf (.mk id r sp fd ic sc ctxs kids) = .mk (kids.map shapeOf) := by
  rw [shapeOf]
  congr 1
  simp

lemma shapeHash_mk (kids : List ShapeT) :
    shapeHash (.mk kids)
      = decRepr kids.length ++ '|' :: (kids.map shapeHash).flatten := by
  rw [shapeHash]
  congr 1
  simp

lemma get_hash_eq_shapeHash (n : SEGNode) : get_hash n = shapeHash (shapeOf n) := by
  match n with
  | .mk id r sp fd ic sc ctxs kids =>
    rw [get_hash_mk, shapeOf_mk, shapeHash_mk, List.length_map, List.map_map]
    have hmap : kids.map get_hash = kids.map (shapeHash ∘ shapeOf) := by
      apply List.map_congr_left
      intro c hc
      exact get_hash_eq_shapeHash c
    rw [hmap]
termination_by sizeOf n
decreasing_by
  simp only [SEGNode.mk.sizeOf_spec]
  have := List.sizeOf_lt_of_mem hc
  omega

/-- Unique decoding of the `digits ++ '|' ++ rest` framing: the first `'|'`
splits both sides at the same place when the prefixes are `'|'`-free. -/
lemma append_bar_inj (a b u v : List Char) (ha : '|' ∉ a) (hb : '|' ∉ b)
    (h : a ++ '|' :: u = b ++ '|' :: v) : a = b ∧ u = v := by
  induction a generalizing b with
  | nil =>
    cases b with
    | nil => simpa using h
    | cons d bs =>
      rw [List.nil_append, List.cons_append, List.cons.injEq] at h
      exact absurd (h.1 ▸ List.mem_cons_self d bs) hb
  | cons c as ih =>
    cases b with
    | nil =>
      rw [List.nil_append, List.cons_append, List.cons.injEq] at h
      exact absurd (h.1 ▸ List.mem_cons_self c as) ha
    | cons d bs =>
      rw [List.cons_append, List.cons_append, List.cons.injEq] at h
      have ha' : '|' ∉ as := fun hm => ha (List.mem_cons_of_mem _ hm)
      have hb' : '|' ∉ bs := fun hm => hb (List.mem_cons_of_mem _ hm)
      obtain ⟨heq, hu⟩ := ih bs ha' hb' h.2
      exact ⟨by rw [h.1, heq], hu⟩

/-- Concatenations of shape hashes decode uniquely: equal-length shape lists
with equal hash concatenations (up to a common suffix) are equal. -/
lemma shapeHash_flatten_inj :
    ∀ (fuel : Nat) (ss ts : List ShapeT) (u v : List Char),
      sizeOf ss < fuel → ss.length = ts.length →
      (ss.map shapeHash).flatten ++ u = (ts.map shapeHash).flatten ++ v →
      ss = ts ∧ u = v := by
  intro fuel
  induction fuel with
  | zero => intro ss ts u v hsize; omega
  | succ n ih =>
    intro ss ts u v hsize hlen h
    match ss, ts with
    | [], [] =>
      refine ⟨rfl, ?_⟩
      simpa using h
    | [], _ :: _ => simp at hlen
    | _ :: _, [] => simp at hlen
    | ShapeT.mk ks :: ss', ShapeT.mk kt :: ts' =>
      rw [List.map_cons, List.map_cons, List.flatten_cons, List.flatten_cons,
        List.append_assoc, List.append_assoc, shapeHash_mk, shapeHash_mk,
        List.append_assoc, List.append_assoc, List.cons_append, List.cons_append] at h
      obtain ⟨hdec, hrest⟩ :=
        append_bar_inj _ _ _ _ (bar_not_mem_decRepr _) (bar_not_mem_decRepr _) h
      have hklen : ks.length = kt.length := decRepr_inj hdec
      have hsz : sizeOf (ShapeT.mk ks :: ss') = 1 + (1 + sizeOf ks) + sizeOf ss' := by
        simp
      have hks : sizeOf ks < n := by omega
      have hss : sizeOf ss' < n := by omega
      obtain ⟨hkids, htails⟩ := ih ks kt _ _ hks hklen hrest
      obtain ⟨hss', huv⟩ := ih ss' ts' _ _ hss (by simpa using hlen) htails
      exact ⟨by rw [hkids, hss'], huv⟩

/-- `shapeHash` is injective: a hash determines the shape. -/
lemma shapeHash_inj {s t : ShapeT} (h : shapeHash s = shapeHash t) : s = t := by
  have h' : ([s].map shapeHash).flatten ++ [] = ([t].map shapeHash).flatten ++ [] := by
    simpa using h
  have := shapeHash_flatten_inj (sizeOf [s] + 1) [s] [t] [] [] (by omega) rfl h'
  simpa using this.1

/-- **C6.** `SEGNode::get_hash` is a pure shape fingerprint: two nodes hash
equally iff their child trees have the same shape (same child count at every
corresponding position, recursively), and the hash is unaffected by `id`,
`isRoot`, `specializeble`, the cost fields and `valid_for_contexts` (hence by
whichever Circuit operation the node was derived from). -/
theorem get_hash_is_shape_fingerprint :
    (∀ a b : SEGNode, get_hash a = get_hash b ↔ shapeOf a = shapeOf b)
    ∧ (∀ (id1 id2 : List Char) (r1 r2 sp1 sp2 fd1 fd2 : Bool)
        (ic1 ic2 sc1 sc2 : Nat) (ctxs1 ctxs2 : List InstructionProjection)
        (kids : List SEGNode),
        get_hash (.mk id1 r1 sp1 fd1 ic1 sc1 ctxs1 kids)
          = get_hash (.mk id2 r2 sp2 fd2 ic2 sc2 ctxs2 kids)) := by
  constructor
  · intro a b
    rw [get_hash_eq_shapeHash, get_hash_eq_shapeHash]
    exact ⟨fun h => shapeHash_inj h, fun h => by rw [h]⟩
  · intro id1 id2 r1 r2 sp1 sp2 fd1 fd2 ic1 ic2 sc1 sc2 ctxs1 ctxs2 kids
    rw [get_hash_mk, get_hash_mk]

/-! # Cost analysis (`SEGGraph::calculate_costs`)

Two bottom-up (`dfs on_close`) sweeps: the first computes `inline_cost` with
`std::accumulate` starting at 1 (a child contributes 1 when its `fd` flag is
set, otherwise its own `inline_cost`) and then sets `fd` when the cost reaches
2 or the node is a root; the second accumulates `subtree_count` the same way.
On the tree view, "children closed before the parent" is exactly structural
recursion into the child list first. -/

def inlineCostOf (kids : List SEGNode) : Nat :=
  kids.foldl
    (fun current c => if c.fd = false then current + c.inline_cost else current + 1) 1

def subtreeCountOf (kids : List SEGNode) : Nat :=
  kids.foldl (fun current c => current + c.subtree_count) 1

def calcInlineFd (n : SEGNode) : SEGNode :=
  match n with
  | .mk id r sp fd _ sc ctxs kids =>
    let kids' := kids.attach.map fun c => calcInlineFd c.1
    .mk id r sp (if decide (2 ≤ inlineCostOf kids') || r then true else fd)
      (inlineCostOf kids') sc ctxs kids'
termination_by sizeOf n
decreasing_by
  have := List.sizeOf_lt_of_mem c.2
  simp only [SEGNode.mk.sizeOf_spec]
  omega

def calcSubtree (n : SEGNode) : SEGNode :=
  match n with
  | .mk id r sp fd ic _ ctxs kids =>
    let kids' := kids.attach.map fun c => calcSubtree c.1
    .mk id r sp fd ic (subtreeCountOf kids') ctxs kids'
termination_by sizeOf n
decreasing_by
  have := List.sizeOf_lt_of_mem c.2
  simp only [SEGNode.mk.sizeOf_spec]
  omega

def calculate_costs (n : SEGNode) : SEGNode := calcSubtree (calcInlineFd n)

/-- All `fd` flags of a freshly built SEG subtree are unset (`SEGNode`'s `fd`
member defaults to `false`; only `calculate_costs` raises it). -/
def fdAllFalseB (n : SEGNode) : Bool :=
  match n with
  | .mk _ _ _ fd _ _ _ kids => !fd && kids.attach.all fun c => fdAllFalseB c.1
termination_by sizeOf n
decreasing_by
  have := List.sizeOf_lt_of_mem c.2
  simp only [SEGNode.mk.sizeOf_spec]
  omega

/-- Checker for the `inline_cost` / `fd` equations at every node. -/
def inlineOkB (n : SEGNode) : Bool :=
  match n with
  | .mk _ r _ fd ic _ _ kids =>
    decide (ic = 1 + (kids.map fun c => if c.fd then 1 else c.inline_cost).sum)
      && (fd == (decide (2 ≤ ic) || r))
      && kids.attach.all fun c => inlineOkB c.1
termination_by sizeOf n
decreasing_by
  have := List.sizeOf_lt_of_mem c.2
  simp only [SEGNode.mk.sizeOf_spec]
  omega

/-- Checker for the `subtree_count` equation at every node. -/
def subtreeOkB (n : SEGNode) : Bool :=
  match n with
  | .mk _ _ _ _ _ sc _ kids =>
    decide (sc = 1 + (kids.map SEGNode.subtree_count).sum)
      && kids.attach.all fun c => subtreeOkB c.1
termination_by sizeOf n
decreasing_by
  have := List.sizeOf_lt_of_mem c.2
  simp only [SEGNode.mk.sizeOf_spec]
  omega

def costOkB (n : SEGNode) : Bool := inlineOkB n && subtreeOkB n

lemma attach_all {α : Type} (l : List α) (f : α → Bool) :
    (l.attach.all fun c => f c.1) = l.all f := by
  apply Bool.eq_iff_iff.mpr
  simp only [List.all_eq_true, List.mem_attach, true_implies, Subtype.forall]

lemma calcInlineFd_mk (id : List Char) (r sp fd : Bool) (ic sc : Nat)
    (ctxs : List InstructionProjection) (kids : List SEGNode) :
    calcInlineFd (.mk id r sp fd ic sc ctxs kids)
      = .mk id r sp
          (if decide (2 ≤ inlineCostOf (kids.map calcInlineFd)) || r then true else fd)
          (inlineCostOf (kids.map calcInlineFd)) sc ctxs (kids.map calcInlineFd) := by
  rw [calcInlineFd]
  simp

lemma calcSubtree_mk (id : List Char) (r sp fd : Bool) (ic sc : Nat)
    (ctxs : List InstructionProjection) (kids : List SEGNode) :
    calcSubtree (.mk id r sp fd ic sc ctxs kids)
      = .mk id r sp fd ic (subtreeCountOf (kids.map calcSubtree)) ctxs
          (kids.map calcSubtree) := by
  rw [calcSubtree]
  simp

lemma fdAllFalseB_mk (id : List Char) (r sp fd : Bool) (ic sc : Nat)
    (ctxs : List InstructionProjection) (kids : List SEGNode) :
    fdAllFalseB (.mk id r sp fd ic sc ctxs kids)
      = (!fd && kids.all fdAllFalseB) := by
  rw [fdAllFalseB]
  congr 1
  exact attach_all kids fdAllFalseB

lemma inlineOkB_mk (id : List Char) (r sp fd : Bool) (ic sc : Nat)
    (ctxs : List InstructionProjection) (kids : List SEGNode) :
    inlineOkB (.mk id r sp fd ic sc ctxs kids)
      = (decide (ic = 1 + (kids.map fun c => if c.fd then 1 else c.inline_cost).sum)
          && (fd == (decide (2 ≤ ic) || r))
          && kids.all inlineOkB) := by
  rw [inlineOkB]
  congr 1
  exact attach_all kids inlineOkB

lemma subtreeOkB_mk (id : List Char) (r sp fd : Bool) (ic sc : Nat)
    (ctxs : List InstructionProjection) (kids : List SEGNode) :
    subtreeOkB (.mk id r sp fd ic sc ctxs kids)
      = (decide (sc = 1 + (kids.map SEGNode.subtree_count).sum)
          && kids.all subtreeOkB) := by
  rw [subtreeOkB]
  congr 1
  exact attach_all kids subtreeOkB

lemma foldl_add_map {α : Type} (l : List α) (f : α → Nat) (init : Nat) :
    l.foldl (fun cur c => cur + f c) init = init + (l.map f).sum := by
  induction l generalizing init with
  | nil => simp
  | cons a l ih => simp [List.foldl_cons, ih, List.sum_cons]; omega

lemma inlineCostOf_eq (l : List SEGNode) :
    inlineCostOf l = 1 + (l.map fun c => if c.fd then 1 else c.inline_cost).sum := by
  unfold inlineCostOf
  rw [show (fun (current : Nat) (c : SEGNode) =>
        if c.fd = false then current + c.inline_cost else current + 1)
      = fun current c => current + (if c.fd then 1 else c.inline_cost) by
    funext current c
    cases h : c.fd <;> simp [h]]
  exact foldl_add_map l _ 1

lemma subtreeCountOf_eq (l : List SEGNode) :
    subtreeCountOf l = 1 + (l.map SEGNode.subtree_count).sum :=
  foldl_add_map l _ 1

lemma calcSubtree_fd (m : SEGNode) : (calcSubtree m).fd = m.fd := by
  match m with
  | .mk id r sp fd ic sc ctxs kids => rw [calcSubtree_mk]; rfl

lemma calcSubtree_inline_cost (m : SEGNode) :
    (calcSubtree m).inline_cost = m.inline_cost := by
  match m with
  | .mk id r sp fd ic sc ctxs kids => rw [calcSubtree_mk]; rfl

lemma inlineOkB_calcInlineFd (n : SEGNode) (h : fdAllFalseB n = true) :
    inlineOkB (calcInlineFd n) = true := by
  match n with
  | .mk id r sp fd ic sc ctxs kids =>
    rw [fdAllFalseB_mk, Bool.and_eq_true, Bool.not_eq_true', List.all_eq_true] at h
    obtain ⟨hfd, hkids⟩ := h
    rw [calcInlineFd_mk, inlineOkB_mk, Bool.and_eq_true, Bool.and_eq_true]
    refine ⟨⟨?_, ?_⟩, ?_⟩
    · rw [decide_eq_true_eq]
      exact inlineCostOf_eq _
    · cases hcond : (decide (2 ≤ inlineCostOf (kids.map calcInlineFd)) || r) <;>
        simp [hcond, hfd]
    · rw [List.all_eq_true]
      intro c hc
      rw [List.mem_map] at hc
      obtain ⟨k, hk, rfl⟩ := hc
      exact inlineOkB_calcInlineFd k (hkids k hk)
termination_by sizeOf n
decreasing_by
  have := List.sizeOf_lt_of_mem hk
  simp only [SEGNode.mk.sizeOf_spec]
  omega

lemma subtreeOkB_calcSubtree (n : SEGNode) : subtreeOkB (calcSubtree n) = true := by
  match n with
  | .mk id r sp fd ic sc ctxs kids =>
    rw [calcSubtree_mk, subtreeOkB_mk, Bool.and_eq_true]
    constructor
    · rw [decide_eq_true_eq]
      exact subtreeCountOf_eq _
    · rw [List.all_eq_true]
      intro c hc
      rw [List.mem_map] at hc
      obtain ⟨k, hk, rfl⟩ := hc
      exact subtreeOkB_calcSubtree k
termination_by sizeOf n
decreasing_by
  have := List.sizeOf_lt_of_mem hk
  simp only [SEGNode.mk.sizeOf_spec]
  omega

lemma inlineOkB_calcSubtree (n : SEGNode) (h : inlineOkB n = true) :
    inlineOkB (calcSubtree n) = true := by
  match n with
  | .mk id r sp fd ic sc ctxs kids =>
    rw [inlineOkB_mk, Bool.and_eq_true, Bool.and_eq_true] at h
    obtain ⟨⟨hic, hfd⟩, hkids⟩ := h
    rw [List.all_eq_true] at hkids
    rw [calcSubtree_mk, inlineOkB_mk, Bool.and_eq_true, Bool.and_eq_true]
    refine ⟨⟨?_, hfd⟩, ?_⟩
    · rw [List.map_map]
      have hmap : kids.map ((fun c => if c.fd then 1 else c.inline_cost) ∘ calcSubtree)
          = kids.map fun c => if c.fd then 1 else c.inline_cost := by
        apply List.map_congr_left
        intro c _
        simp only [Function.comp_apply, calcSubtree_fd, calcSubtree_inline_cost]
      rw [hmap]
      exact hic
    · rw [List.all_eq_true]
      intro c hc
      rw [List.mem_map] at hc
      obtain ⟨k, hk, rfl⟩ := hc
      exact inlineOkB_calcSubtree k (hkids k hk)
termination_by sizeOf n
decreasing_by
  have := List.sizeOf_lt_of_mem hk
  simp only [SEGNode.mk.sizeOf_spec]
  omega

/-- **C5.** After `SEGGraph::calculate_costs` (run on a freshly built SEG,
whose `fd` flags are still unset), every node satisfies
`inline_cost = 1 + Σ_child (child.fd ? 1 : child.inline_cost)`,
`fd = (inline_cost ≥ 2) ∨ is_root`, and
`subtree_count = 1 + Σ_child subtree_count(child)`; in particular every
childless node ends with `inline_cost = 1` and `subtree_count = 1`. -/
theorem calculate_costs_equations (n : SEGNode) (h : fdAllFalseB n = true) :
    costOkB (calculate_costs n) = true
    ∧ (∀ m : SEGNode, costOkB m = true → m.nodes = [] →
        m.inline_cost = 1 ∧ m.subtree_count = 1) := by
  constructor
  · unfold costOkB calculate_costs
    rw [Bool.and_eq_true]
    exact ⟨inlineOkB_calcSubtree _ (inlineOkB_calcInlineFd n h), subtreeOkB_calcSubtree _⟩
  · intro m hok hnil
    match m with
    | .mk id r sp fd ic sc ctxs kids =>
      have hkids : kids = [] := hnil
      subst hkids
      unfold costOkB at hok
      rw [Bool.and_eq_true, inlineOkB_mk, subtreeOkB_mk] at hok
      simp only [List.map_nil, List.sum_nil, List.all_nil, Bool.and_true,
        Bool.and_eq_true, decide_eq_true_eq] at hok
      exact ⟨hok.1.1, hok.2⟩

/-- Witness for `calculate_costs_equations` on the two-node SEG chain
`root → leaf`. -/
theorem calculate_costs_equations_witness :
    costOkB (calculate_costs
      (.mk [] true false false 0 0 [] [.mk [] false false false 0 0 [] []])) = true := by
  have h := calculate_costs_equations
    (.mk [] true false false 0 0 [] [.mk [] false false false 0 0 [] []])
    (by rw [fdAllFalseB_mk]; rw [List.all_cons, fdAllFalseB_mk]; rfl)
  exact h.1

/-! # Emission AST (`lib/Decoder/DecodeAST.cpp`)

The subset of the `decoder` AST constructed by the SEG emission paths:
identifiers, integer literals, variables and declarations, assignment,
statements, statement blocks, `if`, function calls, `==`/`&&`, indexing,
dereference, `return` and `+`.  `ExpressionPrinter` output is modelled for
the variants whose layout is fully determined by `DecodeAST.cpp` (the others
depend on the `Guard` class, which lives outside these sources); rendering
returns `none` for them. -/

inductive Expr where
  | id (s : List Char)
  | int (value : Int)
  | var (name : List Char)
  | varDecl (name : List Char)
  | assign (lhs rhs : Expr)
  | statement (inner : Expr)
  | block (stmts : List Expr)
  | ifStmt (cond body : Expr)
  | functionCall (fname : List Char) (args : List Expr)
  | equal (lhs rhs : Expr)
  | andE (lhs rhs : Expr)
  | indexVar (lhs rhs : Expr)
  | deref (inner : Expr)
  | ret (inner : Expr)
  | plus (lhs rhs : Expr)

structure FunctionDeclaration where
  retType : List Char
  function_name : List Char
  args : List Expr
  body : List Expr

/-- `std::to_string` on an `int64_t` value. -/
def intChars (i : Int) : List Char :=
  if i < 0 then '-' :: decRepr i.natAbs else decRepr i.natAbs

/-- The determined fragment of `ExpressionPrinter::expr`:
`Id`/`Var` print their name, `Int` its decimal value, `VarDecl` prints the
type (`auto` for plain `Var`s) and the name, `Assign` prints
`lhs = rhs;` (a `GuardStyle::None` binary op followed by `raw(';')`),
`Statement` appends `";\n"`, and a `StatementBlock` concatenates its
members' output. -/
def renderedExpr (e : Expr) : Option (List Char) :=
  match e with
  | .id s => some s
  | .var name => some name
  | .varDecl name => some ('a' :: 'u' :: 't' :: 'o' :: ' ' :: name)
  | .int v => some (intChars v)
  | .assign l r => do
    let ls ← renderedExpr l
    let rs ← renderedExpr r
    pure (ls ++ [' ', '=', ' '] ++ rs ++ [';'])
  | .statement inner => do
    let s ← renderedExpr inner
    pure (s ++ [';', '\n'])
  | .block stmts => do
    let parts ← stmts.attach.mapM fun s => renderedExpr s.1
    pure parts.flatten
  | _ => none
termination_by sizeOf e
decreasing_by
  all_goals simp only [Expr.assign.sizeOf_spec, Expr.statement.sizeOf_spec,
    Expr.block.sizeOf_spec] <;> try omega
  have := List.sizeOf_lt_of_mem s.2
  omega

/-! # Root collection and stack sizing
(`SEGGraph::get_nodes_by_vi`, `SEGGraph::get_maximum_vi_size`)

The graph's node pool is a list of `SEGNode`s; a `VerifyInstruction` is its
id.  `get_nodes_by_vi` collects, for every pool node marked `isRoot`, the
projections in `valid_for_contexts` whose `vi` matches. -/

def get_nodes_by_vi (nodes : List SEGNode) (vi : Nat) :
    List (InstructionProjection × SEGNode) :=
  nodes.flatMap fun n =>
    n.valid_for_contexts.filterMap fun root =>
      if root.vi = vi ∧ n.isRoot then some (root, n) else none

/-- `std::max_element`, on the value list in construction order (`none` for
the empty vector, where the source would dereference the end iterator). -/
def max_element : List Nat → Option Nat
  | [] => none
  | x :: xs => some (xs.foldl max x)

/-- The per-`vi` accumulation of `subtree_count` over the collected roots
(`std::accumulate` starting at 0). -/
def vi_stack_size (nodes : List SEGNode) (vi : Nat) : Nat :=
  (get_nodes_by_vi nodes vi).foldl (fun left p => left + p.2.subtree_count) 0

/-- `SEGGraph::get_maximum_vi_size`; the `check(m.size() != 0)` inside
`get_nodes_by_vi` aborts when some `vi` collects no roots, modelled as
`none`. -/
def get_maximum_vi_size (nodes : List SEGNode) (vis : List Nat) : Option Nat :=
  if vis.any fun vi => (get_nodes_by_vi nodes vi).isEmpty then none
  else max_element (vis.map (vi_stack_size nodes))

/-- The statement the driver prints for the computed maximum `m`:
`Statement(Assign(Var("MAX_SIZE_INSTR"), Int(m)))`. -/
def driver_max_size_stmt (nodes : List SEGNode) (vis : List Nat) : Option Expr :=
  (get_maximum_vi_size nodes vis).map fun m =>
    .statement (.assign (.var ("MAX_SIZE_INSTR".toList)) (.int m))

lemma foldl_max_ge (xs : List Nat) (x : Nat) : x ≤ xs.foldl max x := by
  induction xs generalizing x with
  | nil => simp
  | cons a t ih => exact le_trans (le_max_left x a) (ih (max x a))

lemma foldl_max_mem (xs : List Nat) (x : Nat) :
    xs.foldl max x = x ∨ xs.foldl max x ∈ xs := by
  induction xs generalizing x with
  | nil => simp
  | cons a t ih =>
    rcases ih (max x a) with h | h
    · rcases Nat.le_total x a with hle | hle
      · right
        rw [List.foldl_cons, h, max_eq_right hle]
        exact List.mem_cons_self _ _
      · left
        rw [List.foldl_cons, h, max_eq_left hle]
    · right
      exact List.mem_cons_of_mem _ h

lemma foldl_max_ge_mem (xs : List Nat) (x y : Nat) (hy : y ∈ xs) :
    y ≤ xs.foldl max x := by
  induction xs generalizing x with
  | nil => simp at hy
  | cons a t ih =>
    rw [List.mem_cons] at hy
    rcases hy with rfl | hy
    · exact le_trans (le_max_right x y) (foldl_max_ge t _)
    · exact ih (max x a) hy

lemma max_element_spec (vals : List Nat) (hne : vals ≠ []) :
    ∃ M, max_element vals = some M ∧ M ∈ vals ∧ ∀ y ∈ vals, y ≤ M := by
  match vals with
  | [] => exact absurd rfl hne
  | x :: xs =>
    refine ⟨xs.foldl max x, rfl, ?_, ?_⟩
    · rcases foldl_max_mem xs x with h | h
      · rw [h]; exact List.mem_cons_self _ _
      · exact List.mem_cons_of_mem _ h
    · intro y hy
      rw [List.mem_cons] at hy
      rcases hy with rfl | hy
      · exact foldl_max_ge xs y
      · exact foldl_max_ge_mem xs x y hy

lemma vi_stack_size_eq_sum (nodes : List SEGNode) (vi : Nat) :
    vi_stack_size nodes vi
      = ((get_nodes_by_vi nodes vi).map fun p => p.2.subtree_count).sum := by
  unfold vi_stack_size
  rw [foldl_add_map, Nat.zero_add]

lemma renderedExpr_var (name : List Char) : renderedExpr (.var name) = some name := by
  rw [renderedExpr]

lemma renderedExpr_int (v : Int) : renderedExpr (.int v) = some (intChars v) := by
  rw [renderedExpr]

lemma renderedExpr_assign (l r : Expr) :
    renderedExpr (.assign l r)
      = (renderedExpr l).bind fun ls =>
          (renderedExpr r).bind fun rs =>
            some (ls ++ [' ', '=', ' '] ++ rs ++ [';']) := by
  rw [renderedExpr]
  rfl

lemma renderedExpr_statement (inner : Expr) :
    renderedExpr (.statement inner)
      = (renderedExpr inner).bind fun s => some (s ++ [';', '\n']) := by
  rw [renderedExpr]
  rfl

/-- **C4 (amended).** When the circuit has at least one `VerifyInstruction`
and every one of them collects at least one `(projection, SEG-root)` pair,
`get_maximum_vi_size` returns the maximum, over the `VerifyInstruction`s, of
the sum of `subtree_count` over the pairs collected for that instruction, and
the driver prints for it the plain assignment statement
`MAX_SIZE_INSTR = <max>;` (wrapped in a `Statement`, hence rendered
`"MAX_SIZE_INSTR = <max>;;\n"`) — with no `constexpr` qualifier and no
declared type. -/
theorem max_size_instr_statement (nodes : List SEGNode) (vis : List Nat)
    (hne : vis ≠ []) (hall : ∀ vi ∈ vis, get_nodes_by_vi nodes vi ≠ []) :
    ∃ M, get_maximum_vi_size nodes vis = some M
      ∧ (∃ vi ∈ vis,
          M = ((get_nodes_by_vi nodes vi).map fun p => p.2.subtree_count).sum)
      ∧ (∀ vi ∈ vis,
          ((get_nodes_by_vi nodes vi).map fun p => p.2.subtree_count).sum ≤ M)
      ∧ driver_max_size_stmt nodes vis
          = some (.statement (.assign (.var ("MAX_SIZE_INSTR".toList)) (.int M)))
      ∧ renderedExpr (.statement (.assign (.var ("MAX_SIZE_INSTR".toList)) (.int M)))
          = some ("MAX_SIZE_INSTR".toList ++ [' ', '=', ' '] ++ intChars M
              ++ [';', ';', '\n']) := by
  have hany : (vis.any fun vi => (get_nodes_by_vi nodes vi).isEmpty) = false := by
    rw [List.any_eq_false]
    intro vi hvi
    rw [Bool.not_eq_true]
    cases hgn : get_nodes_by_vi nodes vi with
    | nil => exact absurd hgn (hall vi hvi)
    | cons a t => rfl
  have hvals : vis.map (vi_stack_size nodes) ≠ [] := by
    intro h
    exact hne (List.map_eq_nil_iff.mp h)
  obtain ⟨M, hmax, hmem, hub⟩ := max_element_spec _ hvals
  refine ⟨M, ?_, ?_, ?_, ?_, ?_⟩
  · rw [get_maximum_vi_size, hany]
    simpa using hmax
  · rw [List.mem_map] at hmem
    obtain ⟨vi, hvi, hM⟩ := hmem
    exact ⟨vi, hvi, by rw [← hM, vi_stack_size_eq_sum]⟩
  · intro vi hvi
    rw [← vi_stack_size_eq_sum]
    exact hub _ (List.mem_map_of_mem _ hvi)
  · rw [driver_max_size_stmt, get_maximum_vi_size, hany]
    simp only [Bool.false_eq_true, if_false]
    rw [hmax]
    rfl
  · rw [renderedExpr_statement, renderedExpr_assign, renderedExpr_var,
      renderedExpr_int]
    simp [List.append_assoc]

/-- **C4 (counterexample).** On a one-root circuit the driver's
`MAX_SIZE_INSTR` output renders as the plain `"MAX_SIZE_INSTR = 2;;\n"` —
it contains no `constexpr` qualifier (claimed to be emitted as a `constexpr`
integer): the substring `"constexpr"` does not occur in it. -/
theorem max_size_instr_not_constexpr :
    get_maximum_vi_size [.mk [] true false false 0 2 [⟨5, 9, []⟩] []] [5] = some 2
    ∧ renderedExpr (.statement (.assign (.var ("MAX_SIZE_INSTR".toList)) (.int 2)))
        = some ("MAX_SIZE_INSTR = 2;;\n".toList)
    ∧ ¬ ("constexpr".toList <:+: "MAX_SIZE_INSTR = 2;;\n".toList) := by
  refine ⟨?_, ?_, ?_⟩
  · decide
  · rw [renderedExpr_statement, renderedExpr_assign, renderedExpr_var,
      renderedExpr_int]
    decide
  · intro h
    have hc : 'c' ∈ "MAX_SIZE_INSTR = 2;;\n".toList :=
      h.subset (by decide)
    exact absurd hc (by decide)

/-! # Decoder synthesis (`SEGGraph::print_decoder`,
`SEGGraph::get_expression_for_projection`)

The Circuit-side operand trees are modelled as `OpTree`s (an operation name,
an optional `Select` identity when the operation is a `Select`, and the
operand subtrees); projections refer to their root operation by id, resolved
through an environment `Nat → OpTree` standing for the `Operation *` pointer.
`Modelled from the spec:` the generators `non_unique_dfs_with_choices` /
`non_unique_dfs` (declared in `SEGMultiGraph.hpp`, which is not among these
sources) walk both trees in preorder, a `Select` with a committed choice
being replaced by its chosen value operand; `tuple_generators` pairs the two
streams until the shorter is exhausted. -/

inductive OpTree where
  | mk (op_name : List Char) (sel : Option SelectOp) (ops : List OpTree)

/-- Resolution of a committed select choice: the chosen value operand (the
index is operand 0, the values follow it). -/
def resolveChoice (choices : List SelectChoice) (sel : Option SelectOp)
    (ops : List OpTree) : Option OpTree :=
  sel.bind fun s =>
    (choices.find? fun c => decide (c.sel = s)).bind fun ch =>
      ops.get? (ch.chosen_idx + 1)

lemma resolveChoice_mem {choices : List SelectChoice} {sel : Option SelectOp}
    {ops : List OpTree} {sub : OpTree} (h : resolveChoice choices sel ops = some sub) :
    sub ∈ ops := by
  unfold resolveChoice at h
  cases sel with
  | none => exact absurd h (by simp)
  | some s =>
    rw [Option.some_bind] at h
    cases hf : (choices.find? fun c => decide (c.sel = s)) with
    | none =>
      rw [hf, Option.none_bind] at h
      exact absurd h (by simp)
    | some ch =>
      rw [hf, Option.some_bind] at h
      exact List.get?_mem h

/-- Preorder walk of the Circuit operand tree under the committed select
choices: the stream of operation names the decoder pushes from. -/
def opPreorderWithChoices (choices : List SelectChoice) (t : OpTree) :
    List (List Char) :=
  match t with
  | .mk name sel ops =>
    match hres : resolveChoice choices sel ops with
    | some sub => opPreorderWithChoices choices sub
    | none =>
      name :: (ops.attach.map fun o => opPreorderWithChoices choices o.1).flatten
termination_by sizeOf t
decreasing_by
  · have := List.sizeOf_lt_of_mem (resolveChoice_mem hres)
    simp only [OpTree.mk.sizeOf_spec]
    omega
  · have := List.sizeOf_lt_of_mem o.2
    simp only [OpTree.mk.sizeOf_spec]
    omega

/-- Number of nodes yielded by the preorder (`non_unique_dfs`) walk of a
`SEGNode` subtree. -/
def segPreorderCount (n : SEGNode) : Nat :=
  match n with
  | .mk _ _ _ _ _ _ _ kids =>
    1 + (kids.attach.map fun c => segPreorderCount c.1).sum
termination_by sizeOf n
decreasing_by
  have := List.sizeOf_lt_of_mem c.2
  simp only [SEGNode.mk.sizeOf_spec]
  omega

lemma opPreorderWithChoices_mk (choices : List SelectChoice) (name : List Char)
    (sel : Option SelectOp) (ops : List OpTree) :
    opPreorderWithChoices choices (.mk name sel ops)
      = match resolveChoice choices sel ops with
        | some sub => opPreorderWithChoices choices sub
        | none => name :: (ops.map (opPreorderWithChoices choices)).flatten := by
  rw [opPreorderWithChoices]
  cases resolveChoice choices sel ops with
  | some sub => rfl
  | none =>
    simp only
    congr 1
    simp

lemma segPreorderCount_mk (id : List Char) (r sp fd : Bool) (ic sc : Nat)
    (ctxs : List InstructionProjection) (kids : List SEGNode) :
    segPreorderCount (.mk id r sp fd ic sc ctxs kids)
      = 1 + (kids.map segPreorderCount).sum := by
  rw [segPreorderCount]
  congr 2
  simp

/-- The `stack[<counter>++]` l-value text of a push statement. -/
def pushText (stack_counter : List Char) : List Char :=
  "stack[".toList ++ stack_counter ++ "++]".toList

/-- The operand-push sequence: one `stack[ctr++] = <op name>;` statement per
tandem pair; the zip stops at the shorter of the two walks. -/
def pushStatements (stack_counter : List Char) (opNames : List (List Char))
    (segLen : Nat) : List Expr :=
  (opNames.take segLen).map fun name =>
    .statement (.assign (.id (pushText stack_counter)) (.id name))

/-- One `select_id_<id> == <chosen>` guard. -/
def selectEq (c : SelectChoice) : Expr :=
  .equal (.var ("select_id_".toList ++ decRepr c.sel.sel_id)) (.int c.chosen_idx)

/-- The guard block built by `get_expression_for_projection`: the equalities
are conjoined left-to-right into a single expression (push, pop the back,
re-push the `And`). -/
def buildCond : List SelectChoice → List Expr
  | [] => []
  | c :: rest => [rest.foldl (fun acc c' => .andE acc (selectEq c')) (selectEq c)]

/-- The `Statement(FunctionCall(<emitter>, {Id("stack"), stack_counter}))`
dispatch into the registered emitter. -/
def emitterCall (fname stack_counter : List Char) : Expr :=
  .statement (.functionCall fname [.id ("stack".toList), .id stack_counter])

/-- `SEGGraph::get_expression_for_projection`: build the operand-push block
from the tandem walk, append the emitter call (aborting — `none` — when the
node has no registered emitter), and wrap the block in an `if` over the
select-choice guards whenever the projection has committed choices. -/
def get_expression_for_projection (func_decls : List (List Char × FunctionDeclaration))
    (env : Nat → OpTree) (stack_counter : List Char)
    (instr_proj : InstructionProjection) (node : SEGNode) : Option Expr :=
  let ops := opPreorderWithChoices instr_proj.select_choices (env instr_proj.root_in_vi)
  let block := pushStatements stack_counter ops (segPreorderCount node)
  if 0 < instr_proj.select_choices.length then
    match func_decls.find? fun p => decide (p.1 = get_hash node) with
    | none => none
    | some entry =>
      some (.ifStmt (.block (buildCond instr_proj.select_choices))
        (.block (block ++ [emitterCall entry.2.function_name stack_counter])))
  else
    match func_decls.find? fun p => decide (p.1 = get_hash node) with
    | none => none
    | some entry =>
      some (.block (block ++ [emitterCall entry.2.function_name stack_counter]))

/-- Sequence a list of fallible results (any abort aborts the whole
emission). -/
def option_seq {α : Type} : List (Option α) → Option (List α)
  | [] => some []
  | o :: rest => o.bind fun x => (option_seq rest).map fun xs => x :: xs

/-- One `decoder_for_vi<id>` function of `SEGGraph::print_decoder`: group the
collected `(projection, root)` pairs by their root operation (`std::set`
iteration determinised to first-occurrence order), then emit one expression
per projection — via the one-element branch when the group is a singleton,
and one expression per group member otherwise.  The body starts with
`stack_counter = 0`. -/
def decoder_for_vi (func_decls : List (List Char × FunctionDeclaration))
    (env : Nat → OpTree) (nodes : List SEGNode) (vi : Nat) :
    Option FunctionDeclaration :=
  let paths := get_nodes_by_vi nodes vi
  if paths.length = 0 then none
  else
    let keys := paths.foldl
      (fun ks p => if p.1.root_in_vi ∈ ks then ks else ks ++ [p.1.root_in_vi]) []
    let parts := option_seq (keys.map fun key =>
      let group := paths.filter fun p => decide (p.1.root_in_vi = key)
      if group.length = 1 then
        match group with
        | [p] =>
          (get_expression_for_projection func_decls env ("stack_counter".toList)
            p.1 p.2).map fun e => [e]
        | _ => none
      else
        option_seq (group.map fun p =>
          get_expression_for_projection func_decls env ("stack_counter".toList)
            p.1 p.2))
    parts.map fun body =>
      ⟨"void".toList, "decoder_for_vi".toList ++ decRepr vi, [],
        (.assign (.varDecl ("stack_counter".toList)) (.int 0)) :: body.flatten⟩

/-- **C2 (amended).** The expression `get_expression_for_projection` emits
for a projection with a registered emitter is the operand-push sequence
followed by the emitter call, and it is unconditional exactly when the
projection's `select_choices` list is empty; when the projection carries
select choices the block is wrapped in an `if` over those choices — the
guard depends on the projection's choices, not on the size of its group. -/
theorem projection_guard_iff_choices
    (func_decls : List (List Char × FunctionDeclaration)) (env : Nat → OpTree)
    (ctr : List Char) (proj : InstructionProjection) (node : SEGNode)
    (entry : List Char × FunctionDeclaration)
    (hfind : func_decls.find? (fun p => decide (p.1 = get_hash node)) = some entry) :
    (proj.select_choices = [] →
      get_expression_for_projection func_decls env ctr proj node
        = some (.block (pushStatements ctr
            (opPreorderWithChoices proj.select_choices (env proj.root_in_vi))
            (segPreorderCount node)
            ++ [emitterCall entry.2.function_name ctr])))
    ∧ (proj.select_choices ≠ [] →
      get_expression_for_projection func_decls env ctr proj node
        = some (.ifStmt (.block (buildCond proj.select_choices))
            (.block (pushStatements ctr
              (opPreorderWithChoices proj.select_choices (env proj.root_in_vi))
              (segPreorderCount node)
              ++ [emitterCall entry.2.function_name ctr])))) := by
  constructor
  · intro hc
    have hlen : ¬ 0 < proj.select_choices.length := by rw [hc]; simp
    rw [get_expression_for_projection, if_neg hlen, hfind]
  · intro hc
    have hlen : 0 < proj.select_choices.length := by
      cases hcs : proj.select_choices with
      | nil => exact absurd hcs hc
      | cons a t => simp
    rw [get_expression_for_projection, if_pos hlen, hfind]

/-- Witness for `projection_guard_iff_choices`: a choice-free projection on a
childless root is emitted as the unguarded push-then-call block. -/
theorem projection_guard_iff_choices_witness :
    get_expression_for_projection
      [(get_hash (.mk [] true false true 1 1 [⟨0, 5, []⟩] []),
        (⟨[], ['f'], [], []⟩ : FunctionDeclaration))]
      (fun _ => .mk ['o'] none []) ("stack_counter".toList) ⟨0, 5, []⟩
      (.mk [] true false true 1 1 [⟨0, 5, []⟩] [])
      = some (.block (pushStatements ("stack_counter".toList)
          (opPreorderWithChoices [] ((fun (_ : Nat) => OpTree.mk ['o'] none []) 5))
          (segPreorderCount (.mk [] true false true 1 1 [⟨0, 5, []⟩] []))
          ++ [emitterCall ['f'] ("stack_counter".toList)])) :=
  (projection_guard_iff_choices
    [(get_hash (.mk [] true false true 1 1 [⟨0, 5, []⟩] []),
      (⟨[], ['f'], [], []⟩ : FunctionDeclaration))]
    (fun _ => .mk ['o'] none []) ("stack_counter".toList) ⟨0, 5, []⟩
    (.mk [] true false true 1 1 [⟨0, 5, []⟩] [])
    (get_hash (.mk [] true false true 1 1 [⟨0, 5, []⟩] []),
      (⟨[], ['f'], [], []⟩ : FunctionDeclaration))
    (by simp [List.find?])).1 rfl

/-- `print_decoder` on a `vi` that collects exactly one pair: the single
expression produced by `get_expression_for_projection` lands in the function
body after the `stack_counter = 0` initialiser. -/
lemma decoder_for_vi_single (func_decls : List (List Char × FunctionDeclaration))
    (env : Nat → OpTree) (nodes : List SEGNode) (vi : Nat)
    (proj : InstructionProjection) (node : SEGNode) (e : Expr)
    (hpaths : get_nodes_by_vi nodes vi = [(proj, node)])
    (hg : get_expression_for_projection func_decls env ("stack_counter".toList)
        proj node = some e) :
    decoder_for_vi func_decls env nodes vi
      = some ⟨"void".toList, "decoder_for_vi".toList ++ decRepr vi, [],
          [.assign (.varDecl ("stack_counter".toList)) (.int 0), e]⟩ := by
  rw [decoder_for_vi, hpaths]
  simp [option_seq]
  have hg2 : get_expression_for_projection func_decls env
      ['s', 't', 'a', 'c', 'k', '_', 'c', 'o', 'u', 'n', 't', 'e', 'r'] proj node
      = some e := hg
  rw [hg2]
  rfl

def c2_env : Nat → OpTree := fun _ => .mk ['o'] none []

def c2_proj : InstructionProjection := ⟨0, 7, [⟨⟨3, 1⟩, 0⟩]⟩

def c2_leaf : SEGNode := .mk [] true false true 1 1 [c2_proj] []

def c2_fd : FunctionDeclaration := ⟨"VisRetType".toList, ['f'], [], []⟩

/-- **C2 (counterexample).** A `VerifyInstruction` whose sole collected
projection group is a singleton but whose projection carries one select
choice: the decoder body emitted for that group is an `if`-guarded block,
not the claimed unconditional push-then-call sequence. -/
theorem singleton_group_emitted_guarded :
    (get_nodes_by_vi [c2_leaf] 0).length = 1
    ∧ decoder_for_vi [(get_hash c2_leaf, c2_fd)] c2_env [c2_leaf] 0
        = some ⟨"void".toList, "decoder_for_vi".toList ++ decRepr 0, [],
            [.assign (.varDecl ("stack_counter".toList)) (.int 0),
             .ifStmt (.block (buildCond c2_proj.select_choices))
               (.block (pushStatements ("stack_counter".toList) [['o']] 1
                  ++ [emitterCall c2_fd.function_name ("stack_counter".toList)]))]⟩ := by
  have hpaths : get_nodes_by_vi [c2_leaf] 0 = [(c2_proj, c2_leaf)] := rfl
  have hhash : get_hash c2_leaf = ['0', '|'] := by
    rw [show c2_leaf = SEGNode.mk [] true false true 1 1 [c2_proj] [] from rfl,
      get_hash_mk]
    rfl
  have hop : opPreorderWithChoices c2_proj.select_choices (c2_env c2_proj.root_in_vi)
      = [['o']] := by
    rw [show c2_env c2_proj.root_in_vi = OpTree.mk ['o'] none [] from rfl,
      opPreorderWithChoices_mk]
    rfl
  have hseg : segPreorderCount c2_leaf = 1 := by
    rw [show c2_leaf = SEGNode.mk [] true false true 1 1 [c2_proj] [] from rfl,
      segPreorderCount_mk]
    rfl
  have hgefp : get_expression_for_projection [(get_hash c2_leaf, c2_fd)] c2_env
      ("stack_counter".toList) c2_proj c2_leaf
      = some (.ifStmt (.block (buildCond c2_proj.select_choices))
          (.block (pushStatements ("stack_counter".toList) [['o']] 1
            ++ [emitterCall c2_fd.function_name ("stack_counter".toList)]))) := by
    have h := (projection_guard_iff_choices [(get_hash c2_leaf, c2_fd)] c2_env
      ("stack_counter".toList) c2_proj c2_leaf (get_hash c2_leaf, c2_fd)
      (by simp [List.find?])).2
      (by rw [show c2_proj.select_choices = [⟨⟨3, 1⟩, 0⟩] from rfl]; simp)
    rw [h, hop, hseg]
  refine ⟨by rw [hpaths]; rfl, ?_⟩
  exact decoder_for_vi_single _ _ _ _ _ _ _ hpaths hgefp

/-! # Semantics-emitter synthesis (`circ::expr_for_node`)

The emission state: the function table (keyed by `SEGNode` structural hash —
`segnode_hash_on_get_hash` / `segnode_comp_on_hash` compare nodes by
`get_hash`), the `UniqueNameStorage` counter, and the `int *` stack offset.
`get_unique_var_name` pre-increments the counter and returns
`generated_name_<counter>`. -/

structure EmitState where
  func_decls : List (List Char × FunctionDeclaration)
  name_counter : Nat
  stack_offset : Nat

def get_unique_var_name (counter : Nat) : List Char × Nat :=
  ("generated_name_".toList ++ decRepr (counter + 1), counter + 1)

/-- `func_decls.find(node)` under the hash comparator. -/
def findFD (fds : List (List Char × FunctionDeclaration)) (node : SEGNode) :
    Option (List Char × FunctionDeclaration) :=
  fds.find? fun p => decide (p.1 = get_hash node)

/-- The `if(!func_decls.contains(node)) { ... func_decls.insert(...) }` step:
build the `FunctionDeclaration` (signature
`VisRetType f(visitor, stack, stack_offset)`, body = setup block followed by
`return call_var`) under a fresh name, and record it — only when no entry
for the node's hash exists yet. -/
def ensureFD (node : SEGNode) (setup : List Expr) (call_name : List Char)
    (st : EmitState) : EmitState :=
  if (findFD st.func_decls node).isNone then
    let fname := (get_unique_var_name st.name_counter).1
    let c3 := (get_unique_var_name st.name_counter).2
    let fdecl : FunctionDeclaration :=
      ⟨"VisRetType".toList, fname,
        [.varDecl ("visitor".toList), .varDecl ("stack".toList),
         .varDecl ("stack_offset".toList)],
        setup ++ [.ret (.var call_name)]⟩
    ⟨st.func_decls ++ [(get_hash node, fdecl)], c3, st.stack_offset⟩
  else st

mutual

/-- `circ::expr_for_node`: returns the l-value name holding the node's result
and the setup block that must run first; a node with `fd` set is routed
through the function table (creating the declaration on first encounter,
afterwards merely calling it).  The `match ... | none` arm after the ensured
insertion is unreachable by construction. -/
def expr_for_node (stack : List Char) (node : SEGNode) (st : EmitState) :
    (List Char × List Expr) × EmitState :=
  let (pop_name, c1) := get_unique_var_name st.name_counter
  let st1 : EmitState := ⟨st.func_decls, c1, st.stack_offset⟩
  let res := expr_for_children stack node.nodes st1
  let kid_lvals := res.1.1
  let kid_setups := res.1.2
  let st2 := res.2
  let local_vars := Expr.var pop_name :: kid_lvals.map Expr.var
  let so_deref := Expr.deref (.var ("stack_offset".toList))
  let st3 : EmitState := ⟨st2.func_decls, st2.name_counter, st2.stack_offset + 1⟩
  let pop_assign :=
    Expr.statement (.assign (.varDecl pop_name) (.indexVar (.var stack) so_deref))
  let incr := Expr.statement (.assign so_deref (.plus so_deref (.int 1)))
  let (call_name, c2) := get_unique_var_name st3.name_counter
  let st4 : EmitState := ⟨st3.func_decls, c2, st3.stack_offset⟩
  let visitor_assign := Expr.statement (.assign (.varDecl call_name)
    (.functionCall ("visitor.call".toList) local_vars))
  let setup := kid_setups ++ [pop_assign, incr, visitor_assign]
  if node.fd = false then ((call_name, setup), st4)
  else
    let st5 : EmitState := ensureFD node setup call_name st4
    match findFD st5.func_decls node with
    | none => ((call_name, setup), st5)
    | some prev =>
      let (res_name, c4) := get_unique_var_name st5.name_counter
      let st6 : EmitState := ⟨st5.func_decls, c4, st5.stack_offset⟩
      let prev_assign := Expr.statement (.assign (.varDecl res_name)
        (.functionCall prev.2.function_name
          [.id ("visitor".toList), .var stack, .var ("stack_offset".toList)]))
      ((res_name, [prev_assign]), st6)
termination_by sizeOf node
decreasing_by
  cases node with
  | mk id r sp fd ic sc ctxs kids =>
    simp only [SEGNode.nodes, SEGNode.mk.sizeOf_spec]
    omega

/-- The in-order recursion over `node._nodes`: collect the children's
l-values and push each child's setup block. -/
def expr_for_children (stack : List Char) (ns : List SEGNode) (st : EmitState) :
    (List (List Char) × List Expr) × EmitState :=
  match ns with
  | [] => (([], []), st)
  | n :: rest =>
    let r1 := expr_for_node stack n st
    let r2 := expr_for_children stack rest r1.2
    ((r1.1.1 :: r2.1.1, Expr.block r1.1.2 :: r2.1.2), r2.2)
termination_by sizeOf ns
decreasing_by
  · simp only [List.cons.sizeOf_spec]
    omega
  · simp only [List.cons.sizeOf_spec]
    omega

end

lemma find?_append_some {α : Type} {p : α → Bool} {l l' : List α} {v : α}
    (h : l.find? p = some v) : (l ++ l').find? p = some v := by
  induction l with
  | nil => simp [List.find?] at h
  | cons a t ih =>
    rw [List.cons_append]
    cases hp : p a with
    | true =>
      rw [List.find?_cons_of_pos _ hp]
      rwa [List.find?_cons_of_pos _ hp] at h
    | false =>
      rw [List.find?_cons_of_neg _ (by simp [hp])]
      rw [List.find?_cons_of_neg _ (by simp [hp])] at h
      exact ih h

lemma find?_append_none {α : Type} {p : α → Bool} {l l' : List α}
    (h : l.find? p = none) (h' : l'.find? p = none) : (l ++ l').find? p = none := by
  induction l with
  | nil => simpa using h'
  | cons a t ih =>
    rw [List.cons_append]
    cases hp : p a with
    | true =>
      rw [List.find?_cons_of_pos _ hp] at h
      exact absurd h (by simp)
    | false =>
      rw [List.find?_cons_of_neg _ (by simp [hp])]
      rw [List.find?_cons_of_neg _ (by simp [hp])] at h
      exact ih h

lemma mem_le_sum (l : List Nat) (x : Nat) (hx : x ∈ l) : x ≤ l.sum := by
  induction l with
  | nil => simp at hx
  | cons a t ih =>
    rw [List.mem_cons] at hx
    rw [List.sum_cons]
    rcases hx with rfl | hx
    · omega
    · have := ih hx
      omega

/-- The preorder node count factors through the shape. -/
def shapeCount (s : ShapeT) : Nat :=
  match s with
  | .mk kids => 1 + (kids.attach.map fun c => shapeCount c.1).sum
termination_by sizeOf s
decreasing_by
  have := List.sizeOf_lt_of_mem c.2
  simp only [ShapeT.mk.sizeOf_spec]
  omega

lemma shapeCount_mk (kids : List ShapeT) :
    shapeCount (.mk kids) = 1 + (kids.map shapeCount).sum := by
  rw [shapeCount]
  congr 2
  simp

lemma segPreorderCount_eq_shapeCount (n : SEGNode) :
    segPreorderCount n = shapeCount (shapeOf n) := by
  match n with
  | .mk id r sp fd ic sc ctxs kids =>
    rw [segPreorderCount_mk, shapeOf_mk, shapeCount_mk, List.map_map]
    have hmap : kids.map segPreorderCount = kids.map (shapeCount ∘ shapeOf) := by
      apply List.map_congr_left
      intro c hc
      exact segPreorderCount_eq_shapeCount c
    rw [hmap]
termination_by sizeOf n
decreasing_by
  have := List.sizeOf_lt_of_mem hc
  simp only [SEGNode.mk.sizeOf_spec]
  omega

/-- Equal hashes force equal preorder counts (via shape injectivity). -/
lemma get_hash_eq_imp_count_eq {a b : SEGNode} (h : get_hash a = get_hash b) :
    segPreorderCount a = segPreorderCount b := by
  rw [segPreorderCount_eq_shapeCount, segPreorderCount_eq_shapeCount]
  rw [(get_hash_is_shape_fingerprint.1 a b).mp h]

lemma child_count_lt (node : SEGNode) (c : SEGNode) (hc : c ∈ node.nodes) :
    segPreorderCount c < segPreorderCount node := by
  match node with
  | .mk id r sp fd ic sc ctxs kids =>
    rw [segPreorderCount_mk]
    have : segPreorderCount c ≤ (kids.map segPreorderCount).sum :=
      mem_le_sum _ _ (List.mem_map_of_mem _ hc)
    omega

lemma nodup_concat_key {α : Type} (l : List (List Char × α)) (k : List Char) (v : α)
    (hl : (l.map Prod.fst).Nodup) (hk : k ∉ l.map Prod.fst) :
    (((l ++ [(k, v)]).map Prod.fst)).Nodup := by
  rw [List.map_append, List.nodup_append]
  exact ⟨hl, List.nodup_singleton _, by
    intro x hx hmem
    rw [List.map_singleton, List.mem_singleton] at hmem
    subst hmem
    exact hk hx⟩

lemma find?_append_switch {α : Type} {p : α → Bool} {l l' : List α}
    (h : l.find? p = none) : (l ++ l').find? p = l'.find? p := by
  induction l with
  | nil => simp
  | cons a t ih =>
    cases hp : p a with
    | true =>
      rw [List.find?_cons_of_pos _ hp] at h
      exact absurd h (by simp)
    | false =>
      rw [List.find?_cons_of_neg _ (by simp [hp])] at h
      rw [List.cons_append, List.find?_cons_of_neg _ (by simp [hp])]
      exact ih h

lemma ensureFD_table (node : SEGNode) (setup : List Expr) (call_name : List Char)
    (st : EmitState) :
    ∃ tail, (ensureFD node setup call_name st).func_decls = st.func_decls ++ tail
      ∧ (∀ key ∈ tail.map Prod.fst, key = get_hash node)
      ∧ ((st.func_decls.map Prod.fst).Nodup →
          ((ensureFD node setup call_name st).func_decls.map Prod.fst).Nodup) := by
  rw [ensureFD]
  split
  · next hnone =>
    refine ⟨_, rfl, ?_, ?_⟩
    · intro key hkey
      rw [List.map_singleton, List.mem_singleton] at hkey
      exact hkey
    · intro hnd
      apply nodup_concat_key _ _ _ hnd
      rw [Option.isNone_iff_eq_none, findFD, List.find?_eq_none] at hnone
      intro hmem
      rw [List.mem_map] at hmem
      obtain ⟨p, hp, hfst⟩ := hmem
      exact hnone p hp (by simp [hfst])
  · exact ⟨[], by simp, by simp, fun h => h⟩

lemma ensureFD_some (node : SEGNode) (setup : List Expr) (call_name : List Char)
    (st : EmitState) :
    ∃ prev, findFD (ensureFD node setup call_name st).func_decls node = some prev := by
  rw [ensureFD]
  split
  · next hnone =>
    rw [Option.isNone_iff_eq_none] at hnone
    rw [findFD] at hnone
    rw [findFD]
    dsimp only
    rw [find?_append_switch hnone, List.find?_cons_of_pos _ (by simp)]
    exact ⟨_, rfl⟩
  · next hnone =>
    rw [Option.isNone_iff_eq_none] at hnone
    cases hf : findFD st.func_decls node with
    | none => exact absurd hf hnone
    | some prev => exact ⟨prev, rfl⟩

lemma ensureFD_of_found (node : SEGNode) (setup : List Expr) (call_name : List Char)
    (st : EmitState) (entry : List Char × FunctionDeclaration)
    (hfind : findFD st.func_decls node = some entry) :
    ensureFD node setup call_name st = st := by
  rw [ensureFD, if_neg]
  rw [hfind]
  simp

mutual

/-- What one `expr_for_node` call does to the function table: it only appends
entries, every appended key is the hash of a node no larger than the one
being emitted, and key-distinctness is preserved (an entry is inserted only
after `contains` failed). -/
lemma expr_for_node_table (stack : List Char) (node : SEGNode) (st : EmitState) :
    ∃ tail, ((expr_for_node stack node st).2).func_decls = st.func_decls ++ tail
      ∧ (∀ key ∈ tail.map Prod.fst, ∃ m : SEGNode,
          key = get_hash m ∧ segPreorderCount m ≤ segPreorderCount node)
      ∧ ((st.func_decls.map Prod.fst).Nodup →
          (((expr_for_node stack node st).2).func_decls.map Prod.fst).Nodup) := by
  obtain ⟨tail1, h1, hb1, hn1⟩ := expr_for_children_table stack node.nodes
    ⟨st.func_decls, (get_unique_var_name st.name_counter).2, st.stack_offset⟩
  rw [expr_for_node]
  dsimp only
  split
  · -- node.fd = false: the table is whatever the children produced
    refine ⟨tail1, h1, ?_, hn1⟩
    intro key hkey
    obtain ⟨m, hm, n, hn, hcount⟩ := hb1 key hkey
    exact ⟨m, hm, le_of_lt (lt_of_le_of_lt hcount (child_count_lt node n hn))⟩
  · -- node.fd = true: children first, then the ensure step, then a read
    obtain ⟨tail2, h2, hb2, hn2⟩ := ensureFD_table node _ _
      ⟨(expr_for_children stack node.nodes
          ⟨st.func_decls, (get_unique_var_name st.name_counter).2,
            st.stack_offset⟩).2.func_decls,
        (get_unique_var_name (expr_for_children stack node.nodes
          ⟨st.func_decls, (get_unique_var_name st.name_counter).2,
            st.stack_offset⟩).2.name_counter).2,
        (expr_for_children stack node.nodes
          ⟨st.func_decls, (get_unique_var_name st.name_counter).2,
            st.stack_offset⟩).2.stack_offset + 1⟩
    split
    all_goals (
      refine ⟨tail1 ++ tail2, ?_, ?_, ?_⟩
      · rw [h2]
        dsimp only
        rw [h1, List.append_assoc]
      · intro key hkey
        rw [List.map_append, List.mem_append] at hkey
        rcases hkey with hkey | hkey
        · obtain ⟨m, hm, n, hn, hcount⟩ := hb1 key hkey
          exact ⟨m, hm, le_of_lt (lt_of_le_of_lt hcount (child_count_lt node n hn))⟩
        · exact ⟨node, hb2 key hkey, le_rfl⟩
      · intro hnd
        rw [h2]
        dsimp only
        rw [h1]
        have := hn2 (by dsimp only; exact hn1 hnd)
        rw [h2] at this
        dsimp only at this
        rwa [h1] at this)
termination_by sizeOf node
decreasing_by
  cases node with
  | mk id r sp fd ic sc ctxs kids =>
    simp only [SEGNode.nodes, SEGNode.mk.sizeOf_spec]
    omega

lemma expr_for_children_table (stack : List Char) (ns : List SEGNode) (st : EmitState) :
    ∃ tail, ((expr_for_children stack ns st).2).func_decls = st.func_decls ++ tail
      ∧ (∀ key ∈ tail.map Prod.fst, ∃ m : SEGNode, key = get_hash m
          ∧ ∃ n ∈ ns, segPreorderCount m ≤ segPreorderCount n)
      ∧ ((st.func_decls.map Prod.fst).Nodup →
          (((expr_for_children stack ns st).2).func_decls.map Prod.fst).Nodup) := by
  match ns with
  | [] =>
    rw [expr_for_children]
    exact ⟨[], by simp, by simp, fun h => by simpa using h⟩
  | n :: rest =>
    obtain ⟨ta, ha, hba, hna⟩ := expr_for_node_table stack n st
    obtain ⟨tb, hb, hbb, hnb⟩ :=
      expr_for_children_table stack rest (expr_for_node stack n st).2
    rw [expr_for_children]
    dsimp only
    refine ⟨ta ++ tb, ?_, ?_, ?_⟩
    · rw [hb, ha, List.append_assoc]
    · intro key hkey
      rw [List.map_append, List.mem_append] at hkey
      rcases hkey with hkey | hkey
      · obtain ⟨m, hm, hcount⟩ := hba key hkey
        exact ⟨m, hm, n, List.mem_cons_self _ _, hcount⟩
      · obtain ⟨m, hm, n', hn', hcount⟩ := hbb key hkey
        exact ⟨m, hm, n', List.mem_cons_of_mem _ hn', hcount⟩
    · intro hnd
      exact hnb (hna hnd)
termination_by sizeOf ns
decreasing_by
  · simp only [List.cons.sizeOf_spec]
    omega
  · simp only [List.cons.sizeOf_spec]
    omega

end

lemma expr_for_node_reuses (stack : List Char) (node : SEGNode) (st : EmitState)
    (entry : List Char × FunctionDeclaration)
    (hfd : node.fd = true)
    (hfind : findFD st.func_decls node = some entry) :
    ∃ nm st', expr_for_node stack node st
      = ((nm, [Expr.statement (.assign (.varDecl nm)
          (.functionCall entry.2.function_name
            [.id ("visitor".toList), .var stack, .var ("stack_offset".toList)]))]),
          st')
      ∧ findFD st'.func_decls node = some entry := by
  obtain ⟨tail1, hfds1, _, _⟩ := expr_for_children_table stack node.nodes
    ⟨st.func_decls, (get_unique_var_name st.name_counter).2, st.stack_offset⟩
  have hfind4 : findFD (expr_for_children stack node.nodes
      ⟨st.func_decls, (get_unique_var_name st.name_counter).2,
        st.stack_offset⟩).2.func_decls node = some entry := by
    rw [findFD, hfds1]
    dsimp only
    rw [findFD] at hfind
    exact find?_append_some hfind
  rw [expr_for_node]
  dsimp only
  rw [if_neg (by simp [hfd])]
  rw [ensureFD_of_found node _ _
      ⟨(expr_for_children stack node.nodes
          ⟨st.func_decls, (get_unique_var_name st.name_counter).2,
            st.stack_offset⟩).2.func_decls,
        (get_unique_var_name (expr_for_children stack node.nodes
          ⟨st.func_decls, (get_unique_var_name st.name_counter).2,
            st.stack_offset⟩).2.name_counter).2,
        (expr_for_children stack node.nodes
          ⟨st.func_decls, (get_unique_var_name st.name_counter).2,
            st.stack_offset⟩).2.stack_offset + 1⟩ entry hfind4]
  dsimp only
  rw [hfind4]
  exact ⟨_, _, rfl, hfind4⟩

lemma expr_for_node_creates (stack : List Char) (node : SEGNode) (st : EmitState)
    (hfd : node.fd = true)
    (hnone : findFD st.func_decls node = none) :
    ∃ fdecl nm st', expr_for_node stack node st
      = ((nm, [Expr.statement (.assign (.varDecl nm)
          (.functionCall (FunctionDeclaration.function_name fdecl)
            [.id ("visitor".toList), .var stack, .var ("stack_offset".toList)]))]),
          st')
      ∧ findFD st'.func_decls node = some (get_hash node, fdecl) := by
  obtain ⟨tail1, hfds1, hb1, _⟩ := expr_for_children_table stack node.nodes
    ⟨st.func_decls, (get_unique_var_name st.name_counter).2, st.stack_offset⟩
  have htail : tail1.find? (fun p => decide (p.1 = get_hash node)) = none := by
    rw [List.find?_eq_none]
    intro p hp
    obtain ⟨m, hm, n, hn, hcount⟩ := hb1 p.1 (List.mem_map_of_mem _ hp)
    intro hdec
    rw [decide_eq_true_eq] at hdec
    have heq : get_hash m = get_hash node := hm ▸ hdec
    have := get_hash_eq_imp_count_eq heq
    have := child_count_lt node n hn
    omega
  have hnone4 : findFD (expr_for_children stack node.nodes
      ⟨st.func_decls, (get_unique_var_name st.name_counter).2,
        st.stack_offset⟩).2.func_decls node = none := by
    rw [findFD, hfds1]
    dsimp only
    rw [findFD] at hnone
    exact find?_append_none hnone htail
  rw [expr_for_node]
  dsimp only
  rw [if_neg (by simp [hfd])]
  rw [ensureFD]
  dsimp only
  rw [if_pos (by rw [hnone4]; rfl)]
  dsimp only
  rw [findFD, find?_append_switch (by rw [findFD] at hnone4; exact hnone4),
    List.find?_cons_of_pos _ (by simp)]
  refine ⟨_, _, _, rfl, ?_⟩
  rw [findFD]
  dsimp only
  rw [find?_append_switch (by rw [findFD] at hnone4; exact hnone4),
    List.find?_cons_of_pos _ (by simp)]

/-- **C9.** The function table discipline of `expr_for_node`: existing
entries are never overwritten or dropped; key-distinctness of the table is
preserved, so at most one `FunctionDeclaration` is ever recorded per
structural-hash key; for a node with `fd` set whose key is already present
the call builds no new declaration and returns a call to the recorded
function; and the first call for a node with `fd` set and no entry creates
the declaration, records it under the node's hash, and dispatches through
it. -/
theorem expr_for_node_single_declaration (stack : List Char) (node : SEGNode)
    (st : EmitState) :
    (∀ k v, st.func_decls.find? (fun p => decide (p.1 = k)) = some v →
        ((expr_for_node stack node st).2).func_decls.find?
          (fun p => decide (p.1 = k)) = some v)
    ∧ ((st.func_decls.map Prod.fst).Nodup →
        (((expr_for_node stack node st).2).func_decls.map Prod.fst).Nodup)
    ∧ (node.fd = true → ∀ entry, findFD st.func_decls node = some entry →
        ∃ nm st', expr_for_node stack node st
          = ((nm, [Expr.statement (.assign (.varDecl nm)
              (.functionCall entry.2.function_name
                [.id ("visitor".toList), .var stack,
                 .var ("stack_offset".toList)]))]), st')
          ∧ findFD st'.func_decls node = some entry)
    ∧ (node.fd = true → findFD st.func_decls node = none →
        ∃ fdecl nm st', expr_for_node stack node st
          = ((nm, [Expr.statement (.assign (.varDecl nm)
              (.functionCall (FunctionDeclaration.function_name fdecl)
                [.id ("visitor".toList), .var stack,
                 .var ("stack_offset".toList)]))]), st')
          ∧ findFD st'.func_decls node = some (get_hash node, fdecl)) := by
  obtain ⟨tail, hfds, _, hnd⟩ := expr_for_node_table stack node st
  refine ⟨?_, hnd, ?_, ?_⟩
  · intro k v hkv
    rw [hfds]
    exact find?_append_some hkv
  · intro hfd entry hfind
    exact expr_for_node_reuses stack node st entry hfd hfind
  · intro hfd hnone
    exact expr_for_node_creates stack node st hfd hnone

/-- Witness for `expr_for_node_single_declaration`: a childless `fd` node
whose hash is already in the table yields a call to the recorded function
`['g']` and leaves the entry in place. -/
theorem expr_for_node_single_declaration_witness :
    ∃ nm st',
      expr_for_node ("stack".toList) (.mk [] false false true 0 0 [] [])
        ⟨[(get_hash (.mk [] false false true 0 0 [] []),
           (⟨"VisRetType".toList, ['g'], [], []⟩ : FunctionDeclaration))], 0, 0⟩
        = ((nm, [Expr.statement (.assign (.varDecl nm)
            (.functionCall ['g']
              [.id ("visitor".toList), .var ("stack".toList),
               .var ("stack_offset".toList)]))]), st')
      ∧ findFD st'.func_decls (.mk [] false false true 0 0 [] [])
          = some (get_hash (.mk [] false false true 0 0 [] []),
              (⟨"VisRetType".toList, ['g'], [], []⟩ : FunctionDeclaration)) :=
  (expr_for_node_single_declaration ("stack".toList)
      (.mk [] false false true 0 0 [] [])
      ⟨[(get_hash (.mk [] false false true 0 0 [] []),
         (⟨"VisRetType".toList, ['g'], [], []⟩ : FunctionDeclaration))], 0, 0⟩).2.2.1
    rfl
    (get_hash (.mk [] false false true 0 0 [] []),
      (⟨"VisRetType".toList, ['g'], [], []⟩ : FunctionDeclaration))
    (by rw [findFD, List.find?_cons_of_pos _ (by simp)])

/-- Witness for `max_size_instr_statement` on a one-root pool whose root has
`subtree_count = 2`. -/
theorem max_size_instr_statement_witness :
    ∃ M, get_maximum_vi_size [.mk [] true false false 0 2 [⟨5, 9, []⟩] []] [5]
        = some M
      ∧ (∃ vi ∈ [5],
          M = ((get_nodes_by_vi [SEGNode.mk [] true false false 0 2 [⟨5, 9, []⟩] []] vi).map
            fun p => p.2.subtree_count).sum)
      ∧ (∀ vi ∈ [5],
          ((get_nodes_by_vi [SEGNode.mk [] true false false 0 2 [⟨5, 9, []⟩] []] vi).map
            fun p => p.2.subtree_count).sum ≤ M)
      ∧ driver_max_size_stmt [.mk [] true false false 0 2 [⟨5, 9, []⟩] []] [5]
          = some (.statement (.assign (.var ("MAX_SIZE_INSTR".toList)) (.int M)))
      ∧ renderedExpr (.statement (.assign (.var ("MAX_SIZE_INSTR".toList)) (.int M)))
          = some ("MAX_SIZE_INSTR".toList ++ [' ', '=', ' '] ++ intChars M
              ++ [';', ';', '\n']) :=
  max_size_instr_statement [.mk [] true false false 0 2 [⟨5, 9, []⟩] []] [5]
    (by simp)
    (by
      intro vi hvi
      rw [List.mem_singleton] at hvi
      subst hvi
      have h : get_nodes_by_vi [SEGNode.mk [] true false false 0 2 [⟨5, 9, []⟩] []] 5
          = [(⟨5, 9, []⟩, SEGNode.mk [] true false false 0 2 [⟨5, 9, []⟩] [])] := rfl
      rw [h]
      simp)

/-! # Pointer-level back-links (`SEGNode::add_parent`, `SEGNode::add_child`)

These two operations mutate shared nodes through pointers, and the back-link
they create is `std::make_shared<SEGNode>(*this)` — a freshly allocated
*copy* of the node, not a pointer to it.  The heap model: node ids are `Nat`
addresses, `mem` maps addresses to node payloads, `next` is the bump
allocator. -/

structure SEGNodeData where
  id : List Char
  isRoot : Bool
  nodes : List Nat
  parents : List Nat
deriving DecidableEq

structure Heap where
  mem : List (Nat × SEGNodeData)
  next : Nat

def hLookup (h : Heap) (p : Nat) : Option SEGNodeData :=
  (h.mem.find? fun e => decide (e.1 = p)).map Prod.snd

def hUpdate (h : Heap) (p : Nat) (f : SEGNodeData → SEGNodeData) : Heap :=
  ⟨h.mem.map fun e => if e.1 = p then (e.1, f e.2) else e, h.next⟩

def hAlloc (h : Heap) (d : SEGNodeData) : Nat × Heap :=
  (h.next, ⟨h.mem ++ [(h.next, d)], h.next + 1⟩)

/-- Every allocated address is below the bump pointer. -/
def HeapWF (h : Heap) : Prop :=
  ∀ p ∈ h.mem.map Prod.fst, p < h.next

instance (h : Heap) : Decidable (HeapWF h) := by
  unfold HeapWF; infer_instance

/-- `SEGNode::add_child`: append `child` (the pointer itself) to
`this->_nodes`, then append a freshly allocated copy of `*this` to
`child->_parents`.  Dereferencing an unallocated pointer aborts (`none`). -/
def add_child (σ : Heap) (this child : Nat) : Option (Nat × Heap) :=
  let σ1 := hUpdate σ this fun d => ⟨d.id, d.isRoot, d.nodes ++ [child], d.parents⟩
  (hLookup σ1 this).bind fun copy =>
    let alloc := hAlloc σ1 copy
    let f := alloc.1
    let σ2 := alloc.2
    let σ3 := hUpdate σ2 child fun d => ⟨d.id, d.isRoot, d.nodes, d.parents ++ [f]⟩
    some (f, σ3)

/-- `SEGNode::add_parent`: append `parent` to `this->_parents`, then append a
freshly allocated copy of `*this` to `parent->_nodes`. -/
def add_parent (σ : Heap) (this parent : Nat) : Option (Nat × Heap) :=
  let σ1 := hUpdate σ this fun d => ⟨d.id, d.isRoot, d.nodes, d.parents ++ [parent]⟩
  (hLookup σ1 this).bind fun copy =>
    let alloc := hAlloc σ1 copy
    let f := alloc.1
    let σ2 := alloc.2
    let σ3 := hUpdate σ2 parent fun d => ⟨d.id, d.isRoot, d.nodes ++ [f], d.parents⟩
    some (f, σ3)

lemma hLookup_update_ne (σ : Heap) (p q : Nat) (f : SEGNodeData → SEGNodeData)
    (hpq : q ≠ p) : hLookup (hUpdate σ p f) q = hLookup σ q := by
  rw [hLookup, hLookup, hUpdate]
  dsimp only
  congr 1
  induction σ.mem with
  | nil => rfl
  | cons e rest ih =>
    rw [List.map_cons]
    by_cases he : e.1 = p
    · rw [if_pos he]
      have hq : ¬ e.1 = q := by rw [he]; exact fun h => hpq h.symm
      rw [List.find?_cons_of_neg _ (by simpa using hq),
        List.find?_cons_of_neg _ (by simpa using hq)]
      exact ih
    · rw [if_neg he]
      by_cases hq : e.1 = q
      · rw [List.find?_cons_of_pos _ (by simpa using hq),
          List.find?_cons_of_pos _ (by simpa using hq)]
      · rw [List.find?_cons_of_neg _ (by simpa using hq),
          List.find?_cons_of_neg _ (by simpa using hq)]
        exact ih

lemma find_update_list (l : List (Nat × SEGNodeData)) (p : Nat)
    (f : SEGNodeData → SEGNodeData) (d : SEGNodeData)
    (h : Option.map Prod.snd (l.find? fun e => decide (e.1 = p)) = some d) :
    Option.map Prod.snd ((l.map fun e => if e.1 = p then (e.1, f e.2) else e).find?
      fun e => decide (e.1 = p)) = some (f d) := by
  induction l with
  | nil => simp at h
  | cons e rest ih =>
    rw [List.map_cons]
    by_cases he : e.1 = p
    · rw [if_pos he]
      rw [List.find?_cons_of_pos _ (by simpa using he)] at h
      rw [List.find?_cons_of_pos _ (by simpa using he)]
      rw [Option.map_some', Option.some_inj] at h
      rw [Option.map_some', Option.some_inj]
      rw [h]
    · rw [if_neg he]
      rw [List.find?_cons_of_neg _ (by simpa using he)] at h
      rw [List.find?_cons_of_neg _ (by simpa using he)]
      exact ih h

lemma hLookup_update_eq (σ : Heap) (p : Nat) (f : SEGNodeData → SEGNodeData)
    (d : SEGNodeData) (h : hLookup σ p = some d) :
    hLookup (hUpdate σ p f) p = some (f d) := by
  rw [hLookup] at h
  rw [hLookup, hUpdate]
  exact find_update_list σ.mem p f d h

lemma hUpdate_keys (σ : Heap) (p : Nat) (f : SEGNodeData → SEGNodeData) :
    (hUpdate σ p f).mem.map Prod.fst = σ.mem.map Prod.fst := by
  rw [hUpdate]
  dsimp only
  rw [List.map_map]
  apply List.map_congr_left
  intro e _
  by_cases he : e.1 = p
  · rw [Function.comp_apply, if_pos he]
  · rw [Function.comp_apply, if_neg he]

lemma hLookup_mem_fst (σ : Heap) (p : Nat) (d : SEGNodeData)
    (h : hLookup σ p = some d) : p ∈ σ.mem.map Prod.fst := by
  rw [hLookup] at h
  cases hf : σ.mem.find? fun e => decide (e.1 = p) with
  | none => rw [hf] at h; simp at h
  | some e =>
    have hmem := List.mem_of_find?_eq_some hf
    have hpred := List.find?_some hf
    rw [decide_eq_true_eq] at hpred
    rw [← hpred]
    exact List.mem_map_of_mem _ hmem

lemma hLookup_alloc_old (σ : Heap) (x : SEGNodeData) (q : Nat) (d : SEGNodeData)
    (h : hLookup σ q = some d) : hLookup (hAlloc σ x).2 q = some d := by
  rw [hLookup] at h
  rw [hLookup, hAlloc]
  dsimp only
  cases hf : σ.mem.find? fun e => decide (e.1 = q) with
  | none => rw [hf] at h; simp at h
  | some e =>
    rw [hf] at h
    rw [find?_append_some hf]
    exact h

lemma hLookup_alloc_fresh (σ : Heap) (x : SEGNodeData) (hwf : HeapWF σ) :
    hLookup (hAlloc σ x).2 σ.next = some x := by
  rw [hLookup, hAlloc]
  dsimp only
  have hnone : (σ.mem.find? fun e => decide (e.1 = σ.next)) = none := by
    rw [List.find?_eq_none]
    intro e he
    rw [decide_eq_true_eq]
    intro hfst
    have := hwf e.1 (List.mem_map_of_mem _ he)
    omega
  rw [find?_append_switch hnone, List.find?_cons_of_pos _ (by simp)]
  rfl

/-- **C10.** `add_child(c)` appends the pointer `c` itself to `this->_nodes`
but appends a *freshly allocated copy* of `*this` (taken after the child was
appended) to `c->_parents`; symmetrically for `add_parent(p)`.  The back-link
address is the fresh allocation, distinct from `this` (and from the other
operand), and a later mutation of the original node is invisible through the
back-link. -/
theorem add_backlinks_are_copies (σ : Heap) (this child parent : Nat)
    (d dc dp : SEGNodeData)
    (hwf : HeapWF σ)
    (hthis : hLookup σ this = some d)
    (hchild : hLookup σ child = some dc)
    (hparent : hLookup σ parent = some dp)
    (hcth : child ≠ this) (hpth : parent ≠ this) :
    (∃ f σ', add_child σ this child = some (f, σ')
      ∧ f = σ.next ∧ f ≠ this ∧ f ≠ child
      ∧ hLookup σ' this = some ⟨d.id, d.isRoot, d.nodes ++ [child], d.parents⟩
      ∧ hLookup σ' child = some ⟨dc.id, dc.isRoot, dc.nodes, dc.parents ++ [f]⟩
      ∧ hLookup σ' f = some ⟨d.id, d.isRoot, d.nodes ++ [child], d.parents⟩
      ∧ ∀ g, hLookup (hUpdate σ' this g) f = hLookup σ' f)
    ∧ (∃ f σ', add_parent σ this parent = some (f, σ')
      ∧ f = σ.next ∧ f ≠ this ∧ f ≠ parent
      ∧ hLookup σ' this = some ⟨d.id, d.isRoot, d.nodes, d.parents ++ [parent]⟩
      ∧ hLookup σ' parent = some ⟨dp.id, dp.isRoot, dp.nodes ++ [f], dp.parents⟩
      ∧ hLookup σ' f = some ⟨d.id, d.isRoot, d.nodes, d.parents ++ [parent]⟩
      ∧ ∀ g, hLookup (hUpdate σ' this g) f = hLookup σ' f) := by
  have hthis_lt : this < σ.next := hwf this (hLookup_mem_fst σ this d hthis)
  have hchild_lt : child < σ.next := hwf child (hLookup_mem_fst σ child dc hchild)
  have hparent_lt : parent < σ.next := hwf parent (hLookup_mem_fst σ parent dp hparent)
  constructor
  · -- add_child
    have h1 : hLookup (hUpdate σ this fun d =>
        ⟨d.id, d.isRoot, d.nodes ++ [child], d.parents⟩) this
        = some ⟨d.id, d.isRoot, d.nodes ++ [child], d.parents⟩ :=
      hLookup_update_eq σ this _ d hthis
    have hwf1 : HeapWF (hUpdate σ this fun d =>
        ⟨d.id, d.isRoot, d.nodes ++ [child], d.parents⟩) := by
      intro q hq
      rw [hUpdate_keys] at hq
      exact hwf q hq
    rw [add_child]
    dsimp only
    rw [h1, Option.some_bind]
    simp only [show ∀ (σh : Heap) (x : SEGNodeData), (hAlloc σh x).1 = σh.next
        from fun _ _ => rfl,
      show ∀ (σh : Heap) (p : Nat) (g : SEGNodeData → SEGNodeData),
        (hUpdate σh p g).next = σh.next from fun _ _ _ => rfl]
    refine ⟨_, _, rfl, rfl, by omega, by omega, ?_, ?_, ?_, ?_⟩
    · rw [hLookup_update_ne _ _ _ _ (by omega)]
      exact hLookup_alloc_old _ _ _ _ h1
    · have hc1 : hLookup (hUpdate σ this fun d =>
          ⟨d.id, d.isRoot, d.nodes ++ [child], d.parents⟩) child = some dc := by
        rw [hLookup_update_ne _ _ _ _ hcth]
        exact hchild
      have hc2 := hLookup_alloc_old _
        (⟨d.id, d.isRoot, d.nodes ++ [child], d.parents⟩ : SEGNodeData) _ _ hc1
      exact hLookup_update_eq _ _ _ _ hc2
    · rw [hLookup_update_ne _ _ _ _ (by omega)]
      exact hLookup_alloc_fresh _ _ hwf1
    · intro g
      rw [hLookup_update_ne _ _ _ _ (by omega)]
  · -- add_parent
    have h1 : hLookup (hUpdate σ this fun d =>
        ⟨d.id, d.isRoot, d.nodes, d.parents ++ [parent]⟩) this
        = some ⟨d.id, d.isRoot, d.nodes, d.parents ++ [parent]⟩ :=
      hLookup_update_eq σ this _ d hthis
    have hwf1 : HeapWF (hUpdate σ this fun d =>
        ⟨d.id, d.isRoot, d.nodes, d.parents ++ [parent]⟩) := by
      intro q hq
      rw [hUpdate_keys] at hq
      exact hwf q hq
    rw [add_parent]
    dsimp only
    rw [h1, Option.some_bind]
    simp only [show ∀ (σh : Heap) (x : SEGNodeData), (hAlloc σh x).1 = σh.next
        from fun _ _ => rfl,
      show ∀ (σh : Heap) (p : Nat) (g : SEGNodeData → SEGNodeData),
        (hUpdate σh p g).next = σh.next from fun _ _ _ => rfl]
    refine ⟨_, _, rfl, rfl, by omega, by omega, ?_, ?_, ?_, ?_⟩
    · rw [hLookup_update_ne _ _ _ _ (by omega)]
      exact hLookup_alloc_old _ _ _ _ h1
    · have hp1 : hLookup (hUpdate σ this fun d =>
          ⟨d.id, d.isRoot, d.nodes, d.parents ++ [parent]⟩) parent = some dp := by
        rw [hLookup_update_ne _ _ _ _ hpth]
        exact hparent
      have hp2 := hLookup_alloc_old _
        (⟨d.id, d.isRoot, d.nodes, d.parents ++ [parent]⟩ : SEGNodeData) _ _ hp1
      exact hLookup_update_eq _ _ _ _ hp2
    · rw [hLookup_update_ne _ _ _ _ (by omega)]
      exact hLookup_alloc_fresh _ _ hwf1
    · intro g
      rw [hLookup_update_ne _ _ _ _ (by omega)]

/-- Witness for `add_backlinks_are_copies` on a two-node heap. -/
theorem add_backlinks_are_copies_witness :
    ∃ f σ', add_child ⟨[(0, ⟨['a'], false, [], []⟩), (1, ⟨['b'], false, [], []⟩)], 2⟩
        0 1 = some (f, σ')
      ∧ f = 2 ∧ f ≠ 0 ∧ f ≠ 1
      ∧ hLookup σ' 0 = some ⟨['a'], false, [] ++ [1], []⟩
      ∧ hLookup σ' 1 = some ⟨['b'], false, [], [] ++ [f]⟩
      ∧ hLookup σ' f = some ⟨['a'], false, [] ++ [1], []⟩
      ∧ ∀ g, hLookup (hUpdate σ' 0 g) f = hLookup σ' f :=
  (add_backlinks_are_copies
    ⟨[(0, ⟨['a'], false, [], []⟩), (1, ⟨['b'], false, [], []⟩)], 2⟩
    0 1 1 ⟨['a'], false, [], []⟩ ⟨['b'], false, [], []⟩ ⟨['b'], false, [], []⟩
    (by decide)
    (by decide) (by decide) (by decide) (by decide) (by decide)).1

/-! # The merge-transitive-advices pass
(`include/circuitous/Transforms/Passes.hpp`, `MergeAdviceConstraints`)

Circuit operations are modelled as an association list from node id to
`(opcode kind, operand id list)`.  The pass body (lines 116–146 of
`Passes.hpp`) is in these sources; the `Operation` primitives it calls
(`attr`, `destroy`, `remove_all_operands`, `users`, `replace_all_uses_with`)
are not, so they are `Modelled from the spec:` operations are mutated only
via `replace_operand` / `replace_all_uses_with` / `destroy`; `destroy`
removes the operation from the circuit's node set; `remove_all_operands(t)`
drops every occurrence of `t` from the operand list; the
`while(users_size) first_user->remove_all_operands(ac)` loop reaches the
state in which no node holds `ac` as an operand (one sweep over all nodes);
`replace_all_uses_with` rewrites every operand occurrence. -/

inductive OpKind where
  | advice
  | adviceConstraint
  | regConstraint
  | inputRegister
  | outputRegister
  | constant
  | orOp
  | verifyInstruction
  | otherOp
deriving DecidableEq

structure CNode where
  kind : OpKind
  operands : List Nat
deriving DecidableEq

abbrev Circuit := List (Nat × CNode)

def cLookup (σ : Circuit) (p : Nat) : Option CNode :=
  (σ.find? fun e => decide (e.1 = p)).map Prod.snd

def isAdviceB (σ : Circuit) (p : Nat) : Bool :=
  match cLookup σ p with
  | some n => n.kind == .advice
  | none => false

/-- `Modelled from the spec:` `op->destroy()` removes the operation from the
circuit's node set. -/
def destroyOp (σ : Circuit) (p : Nat) : Circuit :=
  σ.filter fun e => decide (e.1 ≠ p)

/-- `Modelled from the spec:` `op->remove_all_operands(t)` drops every
occurrence of `t` from `op`'s operand list. -/
def remove_all_operands (σ : Circuit) (p t : Nat) : Circuit :=
  σ.map fun e =>
    if e.1 = p then (e.1, ⟨e.2.kind, e.2.operands.filter fun x => decide (x ≠ t)⟩)
    else e

/-- `Modelled from the spec:` the fixpoint of
`while(ac->users_size() > 0) first_user->remove_all_operands(ac)`: no node
keeps `ac` among its operands. -/
def detach_from_users (σ : Circuit) (ac : Nat) : Circuit :=
  σ.map fun e => (e.1, ⟨e.2.kind, e.2.operands.filter fun x => decide (x ≠ ac)⟩)

/-- `Modelled from the spec:` `rhs->replace_all_uses_with(lhs)` rewrites
every operand occurrence of `rhs` into `lhs`. -/
def replace_all_uses_with (σ : Circuit) (rhs lhs : Nat) : Circuit :=
  σ.map fun e => (e.1, ⟨e.2.kind, e.2.operands.map fun x => if x = rhs then lhs else x⟩)

/-- The body of the `for (auto ac : circuit->attr<AdviceConstraint>())` loop
for one constraint: `check(operands_size() == 2)` aborts (`none`); when both
operands are `Advice`s the constraint is destroyed, its operand links
cleared, it is detached from all users, and uses of the second operand are
redirected to the first — in the source's order. -/
def processAC (σ : Circuit) (ac : Nat) : Option Circuit :=
  match cLookup σ ac with
  | none => some σ
  | some n =>
    if n.kind = .adviceConstraint then
      match n.operands with
      | [l, r] =>
        if isAdviceB σ l && isAdviceB σ r then
          some (replace_all_uses_with
            (detach_from_users
              (remove_all_operands (remove_all_operands (destroyOp σ ac) ac l) ac r)
              ac)
            r l)
        else some σ
      | _ => none
    else some σ

/-- The ids `attr<AdviceConstraint>()` yields, in node-list order. -/
def acSnapshot (σ : Circuit) : List Nat :=
  σ.filterMap fun e => if e.2.kind = .adviceConstraint then some e.1 else none

def runOn (σ : Circuit) : List Nat → Option Circuit
  | [] => some σ
  | ac :: rest => (processAC σ ac).bind fun σ1 => runOn σ1 rest

/-- `MergeAdviceConstraints::run`. -/
def runMergeAdvicePass (σ : Circuit) : Option Circuit :=
  runOn σ (acSnapshot σ)

/-- A live `AdviceConstraint` with an `Advice` on both sides. -/
def BA (σ : Circuit) (id : Nat) : Bool :=
  match cLookup σ id with
  | some n =>
    n.kind == .adviceConstraint
      && (match n.operands with
          | [l, r] => isAdviceB σ l && isAdviceB σ r
          | _ => false)
  | none => false

/-- The composite state change of the destroy branch, in the source's order:
destroy, clear the constraint's own operands, detach it from all users,
redirect uses of `r` to `l`. -/
def transformAC (σ : Circuit) (ac l r : Nat) : Circuit :=
  replace_all_uses_with
    (detach_from_users
      (remove_all_operands (remove_all_operands (destroyOp σ ac) ac l) ac r) ac)
    r l

lemma cLookup_entry_map (σ : Circuit) (F : Nat × CNode → CNode) (q : Nat) :
    cLookup (σ.map fun e => (e.1, F e)) q
      = (σ.find? fun e => decide (e.1 = q)).map F := by
  rw [cLookup]
  induction σ with
  | nil => rfl
  | cons e rest ih =>
    rw [List.map_cons]
    by_cases hq : e.1 = q
    · rw [List.find?_cons_of_pos _ (by simpa using hq),
        List.find?_cons_of_pos _ (by simpa using hq)]
      rfl
    · rw [List.find?_cons_of_neg _ (by simpa using hq),
        List.find?_cons_of_neg _ (by simpa using hq)]
      exact ih

lemma cLookup_detach (σ : Circuit) (ac q : Nat) :
    cLookup (detach_from_users σ ac) q
      = (cLookup σ q).map fun n =>
          ⟨n.kind, n.operands.filter fun x => decide (x ≠ ac)⟩ := by
  rw [detach_from_users, cLookup_entry_map, cLookup, Option.map_map]
  rfl

lemma cLookup_replace (σ : Circuit) (rhs lhs q : Nat) :
    cLookup (replace_all_uses_with σ rhs lhs) q
      = (cLookup σ q).map fun n =>
          ⟨n.kind, n.operands.map fun x => if x = rhs then lhs else x⟩ := by
  rw [replace_all_uses_with, cLookup_entry_map, cLookup, Option.map_map]
  rfl

lemma cLookup_destroyOp (σ : Circuit) (p q : Nat) :
    cLookup (destroyOp σ p) q = if q = p then none else cLookup σ q := by
  by_cases hqp : q = p
  · rw [if_pos hqp]
    subst hqp
    rw [cLookup]
    have : (destroyOp σ q).find? (fun e => decide (e.1 = q)) = none := by
      rw [List.find?_eq_none]
      intro e he
      rw [destroyOp, List.mem_filter] at he
      simpa using he.2
    rw [this]
    rfl
  · rw [if_neg hqp, cLookup, cLookup, destroyOp]
    congr 1
    induction σ with
    | nil => rfl
    | cons e rest ih =>
      by_cases hep : e.1 = p
      · rw [List.filter_cons_of_neg (by simpa using hep),
          List.find?_cons_of_neg _ (by simp; omega)]
        exact ih
      · rw [List.filter_cons_of_pos (by simpa using hep)]
        by_cases heq : e.1 = q
        · rw [List.find?_cons_of_pos _ (by simpa using heq),
            List.find?_cons_of_pos _ (by simpa using heq)]
        · rw [List.find?_cons_of_neg _ (by simpa using heq),
            List.find?_cons_of_neg _ (by simpa using heq)]
          exact ih

lemma cLookup_remove_all_operands_other (σ : Circuit) (p t q : Nat) (hq : q ≠ p) :
    cLookup (remove_all_operands σ p t) q = cLookup σ q := by
  rw [cLookup, cLookup, remove_all_operands]
  congr 1
  induction σ with
  | nil => rfl
  | cons e rest ih =>
    rw [List.map_cons]
    by_cases hep : e.1 = p
    · have heq : ¬ e.1 = q := by rw [hep]; exact fun h => hq h.symm
      rw [if_pos hep, List.find?_cons_of_neg _ (by simpa using heq),
        List.find?_cons_of_neg _ (by simpa using heq)]
      exact ih
    · rw [if_neg hep]
      by_cases heq : e.1 = q
      · rw [List.find?_cons_of_pos _ (by simpa using heq),
          List.find?_cons_of_pos _ (by simpa using heq)]
      · rw [List.find?_cons_of_neg _ (by simpa using heq),
          List.find?_cons_of_neg _ (by simpa using heq)]
        exact ih

lemma cLookup_remove_all_operands_self (σ : Circuit) (p t : Nat) :
    cLookup (remove_all_operands σ p t) p
      = (cLookup σ p).map fun n =>
          ⟨n.kind, n.operands.filter fun x => decide (x ≠ t)⟩ := by
  rw [cLookup, cLookup, remove_all_operands]
  induction σ with
  | nil => rfl
  | cons e rest ih =>
    rw [List.map_cons]
    by_cases hep : e.1 = p
    · rw [if_pos hep, List.find?_cons_of_pos _ (by simpa using hep),
        List.find?_cons_of_pos _ (by simpa using hep)]
      rfl
    · rw [if_neg hep, List.find?_cons_of_neg _ (by simpa using hep),
        List.find?_cons_of_neg _ (by simpa using hep)]
      exact ih

lemma cLookup_transformAC (σ : Circuit) (ac l r q : Nat) :
    cLookup (transformAC σ ac l r) q
      = if q = ac then none
        else (cLookup σ q).map fun n =>
          ⟨n.kind, (n.operands.filter fun x => decide (x ≠ ac)).map
            fun x => if x = r then l else x⟩ := by
  rw [transformAC, cLookup_replace, cLookup_detach]
  by_cases hq : q = ac
  · rw [if_pos hq]
    subst hq
    rw [cLookup_remove_all_operands_self, cLookup_remove_all_operands_self,
      cLookup_destroyOp, if_pos rfl]
    rfl
  · rw [if_neg hq, cLookup_remove_all_operands_other _ _ _ _ hq,
      cLookup_remove_all_operands_other _ _ _ _ hq, cLookup_destroyOp, if_neg hq,
      Option.map_map]
    rfl

/-- A successful `processAC` step either leaves the circuit unchanged (the
constraint is absent, not an `AdviceConstraint`, or not advice-on-both-sides)
or performs the destroy-detach-redirect transformation. -/
lemma processAC_cases (σ : Circuit) (ac : Nat) (σ1 : Circuit)
    (h : processAC σ ac = some σ1) :
    (BA σ ac = false ∧ σ1 = σ)
    ∨ (∃ n l r, BA σ ac = true ∧ cLookup σ ac = some n ∧ n.operands = [l, r]
        ∧ n.kind = .adviceConstraint
        ∧ isAdviceB σ l = true ∧ isAdviceB σ r = true
        ∧ σ1 = transformAC σ ac l r) := by
  rw [processAC] at h
  split at h
  · next hl =>
    left
    refine ⟨?_, (Option.some_inj.mp h).symm⟩
    rw [BA, hl]
  · next n hl =>
    split at h
    · next hkind =>
      split at h
      · next l r hops =>
        split at h
        · next hadv =>
          right
          rw [Bool.and_eq_true] at hadv
          refine ⟨n, l, r, ?_, hl, hops, hkind, hadv.1, hadv.2,
            (Option.some_inj.mp h).symm⟩
          rw [BA, hl]
          simp only []
          rw [hops, hkind]
          simp [hadv.1, hadv.2]
        · next hadv =>
          left
          refine ⟨?_, (Option.some_inj.mp h).symm⟩
          rw [BA, hl]
          simp only []
          rw [hops]
          rw [Bool.not_eq_true] at hadv
          simp [hadv]
      · next hops => exact absurd h (by simp)
    · next hkind =>
      left
      refine ⟨?_, (Option.some_inj.mp h).symm⟩
      rw [BA, hl]
      simp only []
      have hbe : (n.kind == OpKind.adviceConstraint) = false := by
        cases hk : n.kind == OpKind.adviceConstraint
        · rfl
        · exact absurd (beq_iff_eq.mp hk) hkind
      simp [hbe]

lemma isAdviceB_transformAC (σ : Circuit) (ac l r x : Nat) :
    isAdviceB (transformAC σ ac l r) x = if x = ac then false else isAdviceB σ x := by
  rw [isAdviceB, cLookup_transformAC]
  by_cases hx : x = ac
  · rw [if_pos hx, if_pos hx]
  · rw [if_neg hx, if_neg hx, isAdviceB]
    cases hl : cLookup σ x with
    | none => rfl
    | some n => rfl

/-- A live `AdviceConstraint`. -/
def ACLive (σ : Circuit) (id : Nat) : Prop :=
  ∃ n, cLookup σ id = some n ∧ n.kind = .adviceConstraint

/-- Not advice-on-both-sides, in the form preserved by the pass: at most two
operands, and any two-operand form has a non-`Advice` side. -/
def NotBA2 (σ : Circuit) (id : Nat) : Prop :=
  ∀ n, cLookup σ id = some n →
    n.operands.length ≤ 2
      ∧ ∀ l r, n.operands = [l, r] →
          isAdviceB σ l = false ∨ isAdviceB σ r = false

lemma BA_eq_false_of_NotBA2 {σ : Circuit} {id : Nat} (h : NotBA2 σ id) :
    BA σ id = false := by
  rw [BA]
  cases hl : cLookup σ id with
  | none => rfl
  | some n =>
    simp only []
    obtain ⟨hlen, hlr⟩ := h n hl
    cases hops : n.operands with
    | nil => simp
    | cons a t =>
      cases t with
      | nil => simp
      | cons b t2 =>
        cases t2 with
        | nil => rcases hlr a b hops with hf | hf <;> simp [hf]
        | cons c t3 => simp

lemma ACLive_transformAC_rev {σ : Circuit} {ac l r id : Nat}
    (h : ACLive (transformAC σ ac l r) id) : id ≠ ac ∧ ACLive σ id := by
  obtain ⟨n1, h1, hk⟩ := h
  rw [cLookup_transformAC] at h1
  by_cases hid : id = ac
  · rw [if_pos hid] at h1
    exact absurd h1 (by simp)
  · rw [if_neg hid] at h1
    cases hl : cLookup σ id with
    | none => rw [hl] at h1; exact absurd h1 (by simp)
    | some n =>
      rw [hl, Option.map_some', Option.some_inj] at h1
      refine ⟨hid, n, hl, ?_⟩
      rw [← hk, ← h1]

lemma NotBA2_transformAC {σ : Circuit} {ac l r id : Nat}
    (hr : isAdviceB σ r = true) (h : NotBA2 σ id) :
    NotBA2 (transformAC σ ac l r) id := by
  intro n1 h1
  rw [cLookup_transformAC] at h1
  by_cases hid : id = ac
  · rw [if_pos hid] at h1
    exact absurd h1 (by simp)
  · rw [if_neg hid] at h1
    cases hl : cLookup σ id with
    | none => rw [hl] at h1; exact absurd h1 (by simp)
    | some n =>
      rw [hl, Option.map_some', Option.some_inj] at h1
      obtain ⟨hlen, hlr⟩ := h n hl
      constructor
      · rw [← h1]
        calc (⟨n.kind, (n.operands.filter fun x => decide (x ≠ ac)).map
              fun x => if x = r then l else x⟩ : CNode).operands.length
            = (n.operands.filter fun x => decide (x ≠ ac)).length := by
              rw [List.length_map]
          _ ≤ n.operands.length := List.length_filter_le _ _
          _ ≤ 2 := hlen
      · intro a b hab
        rw [← h1] at hab
        have hfm : (n.operands.filter fun x => decide (x ≠ ac)).map
            (fun x => if x = r then l else x) = [a, b] := hab
        have hfl : (n.operands.filter fun x => decide (x ≠ ac)).length = 2 := by
          have := congrArg List.length hfm
          rw [List.length_map] at this
          simpa using this
        have holen : n.operands.length = 2 :=
          le_antisymm hlen (hfl ▸ List.length_filter_le _ _)
        obtain ⟨x, y, hxy⟩ : ∃ x y, n.operands = [x, y] := by
          match hn : n.operands with
          | [x, y] => exact ⟨x, y, rfl⟩
          | [] => rw [hn] at holen; simp at holen
          | [x] => rw [hn] at holen; simp at holen
          | x :: y :: z :: t => rw [hn] at holen; simp at holen
        rw [hxy] at hfl hfm
        have hxac : ¬ x = ac := by
          intro hc
          rw [List.filter_cons_of_neg (by simpa using hc)] at hfl
          have h1 := List.length_filter_le (fun x => decide (x ≠ ac)) [y]
          rw [hfl] at h1
          simp at h1
        have hyac : ¬ y = ac := by
          intro hc
          rw [List.filter_cons_of_pos (by simpa using hxac),
            List.filter_cons_of_neg (by simpa using hc)] at hfl
          simp at hfl
        rw [List.filter_cons_of_pos (by simpa using hxac),
          List.filter_cons_of_pos (by simpa using hyac)] at hfm
        simp only [List.filter_nil, List.map_cons, List.map_nil,
          List.cons.injEq, and_true] at hfm
        obtain ⟨ha, hb⟩ := hfm
        rcases hlr x y hxy with hf | hf
        · left
          have hxr : ¬ x = r := fun hc => by rw [hc, hr] at hf; exact absurd hf (by simp)
          rw [← ha, if_neg hxr, isAdviceB_transformAC, if_neg hxac]
          exact hf
        · right
          have hyr : ¬ y = r := fun hc => by rw [hc, hr] at hf; exact absurd hf (by simp)
          rw [← hb, if_neg hyr, isAdviceB_transformAC, if_neg hyac]
          exact hf

lemma cLookup_none_processAC {σ σ1 : Circuit} {id ac : Nat}
    (h : cLookup σ id = none) (hp : processAC σ ac = some σ1) :
    cLookup σ1 id = none := by
  rcases processAC_cases σ ac σ1 hp with ⟨_, rfl⟩ | ⟨n, l, r, _, _, _, _, _, _, rfl⟩
  · exact h
  · rw [cLookup_transformAC]
    by_cases hid : id = ac
    · rw [if_pos hid]
    · rw [if_neg hid, h]
      rfl

lemma NotBA2_processAC {σ σ1 : Circuit} {id ac : Nat}
    (h : NotBA2 σ id) (hp : processAC σ ac = some σ1) : NotBA2 σ1 id := by
  rcases processAC_cases σ ac σ1 hp with ⟨_, rfl⟩ | ⟨n, l, r, _, _, _, _, _, hr, rfl⟩
  · exact h
  · exact NotBA2_transformAC hr h

lemma BA_true_elim {σ : Circuit} {id : Nat} (h : BA σ id = true) :
    ∃ n a b, cLookup σ id = some n ∧ n.kind = .adviceConstraint
      ∧ n.operands = [a, b] ∧ isAdviceB σ a = true ∧ isAdviceB σ b = true := by
  rw [BA] at h
  cases hl : cLookup σ id with
  | none => rw [hl] at h; simp at h
  | some n =>
    rw [hl] at h
    simp only [Bool.and_eq_true, beq_iff_eq] at h
    cases hops : n.operands with
    | nil => rw [hops] at h; simp at h
    | cons a t =>
      cases t with
      | nil => rw [hops] at h; simp at h
      | cons b t2 =>
        cases t2 with
        | nil =>
          rw [hops] at h
          simp only [Bool.and_eq_true] at h
          exact ⟨n, a, b, rfl, h.1, hops, h.2.1, h.2.2⟩
        | cons c t3 => rw [hops] at h; simp at h

lemma BA_true_intro {σ : Circuit} {id : Nat} {n : CNode} {a b : Nat}
    (hl : cLookup σ id = some n) (hk : n.kind = .adviceConstraint)
    (hops : n.operands = [a, b]) (ha : isAdviceB σ a = true)
    (hb : isAdviceB σ b = true) : BA σ id = true := by
  rw [BA, hl]
  simp only []
  rw [hops, hk]
  simp [ha, hb]

lemma advice_ne_of_ac_kind {σ : Circuit} {x ac : Nat} {n : CNode}
    (hx : isAdviceB σ x = true) (hl : cLookup σ ac = some n)
    (hk : n.kind = .adviceConstraint) : x ≠ ac := by
  intro hc
  subst hc
  rw [isAdviceB, hl] at hx
  rw [beq_iff_eq] at hx
  rw [hx] at hk
  exact absurd hk (by simp)

lemma cLookup_mem {σ : Circuit} {id : Nat} {n : CNode}
    (h : cLookup σ id = some n) : (id, n) ∈ σ := by
  rw [cLookup] at h
  cases hf : σ.find? fun e => decide (e.1 = id) with
  | none => rw [hf] at h; simp at h
  | some e =>
    rw [hf, Option.map_some', Option.some_inj] at h
    have hmem := List.mem_of_find?_eq_some hf
    have hpred := List.find?_some hf
    rw [decide_eq_true_eq] at hpred
    rw [← h, ← hpred]
    exact hmem

lemma ACLive_processAC_rev {σ σ1 : Circuit} {id ac : Nat}
    (hp : processAC σ ac = some σ1) (h : ACLive σ1 id) : ACLive σ id := by
  rcases processAC_cases σ ac σ1 hp with ⟨_, rfl⟩ | ⟨n, l, r, _, _, _, _, _, _, rfl⟩
  · exact h
  · exact (ACLive_transformAC_rev h).2

lemma processAC_skip_NotBA2 {σ σ1 : Circuit} {ac : Nat}
    (hp : processAC σ ac = some σ1) (hba : BA σ ac = false)
    (hlive : ACLive σ ac) : NotBA2 σ ac := by
  obtain ⟨n, hl, hk⟩ := hlive
  rw [processAC, hl] at hp
  simp only [] at hp
  rw [if_pos hk] at hp
  split at hp
  · next l r hops =>
    intro n' hl'
    have hnn : n' = n := by
      rw [hl] at hl'
      exact (Option.some_inj.mp hl').symm
    subst hnn
    refine ⟨by rw [hops]; simp, ?_⟩
    intro a b hab
    have ha : a = l := by rw [hops] at hab; exact (List.cons_eq_cons.mp hab).1.symm
    have hb : b = r := by
      rw [hops] at hab
      have := (List.cons_eq_cons.mp hab).2
      exact (List.cons_eq_cons.mp this).1.symm
    subst ha
    subst hb
    rw [BA, hl] at hba
    simp only [] at hba
    rw [hops, hk] at hba
    simp only [beq_self_eq_true, Bool.true_and] at hba
    rcases Bool.and_eq_false_iff.mp hba with hf | hf
    · exact Or.inl hf
    · exact Or.inr hf
  · next => exact absurd hp (by simp)

def NotRef (σ : Circuit) (id : Nat) : Prop :=
  cLookup σ id = none ∧ ∀ jd n', cLookup σ jd = some n' → id ∉ n'.operands

lemma NotRef_transformAC {σ : Circuit} {ac l r id : Nat} {n : CNode}
    (hacl : cLookup σ ac = some n) (hk : n.kind = .adviceConstraint)
    (hl : isAdviceB σ l = true) (h : NotRef σ id) :
    NotRef (transformAC σ ac l r) id := by
  obtain ⟨hdead, hnoref⟩ := h
  constructor
  · rw [cLookup_transformAC]
    by_cases hid : id = ac
    · rw [if_pos hid]
    · rw [if_neg hid, hdead]
      rfl
  · intro jd n1 h1
    rw [cLookup_transformAC] at h1
    by_cases hjd : jd = ac
    · rw [if_pos hjd] at h1
      exact absurd h1 (by simp)
    · rw [if_neg hjd] at h1
      cases hlj : cLookup σ jd with
      | none => rw [hlj] at h1; exact absurd h1 (by simp)
      | some m =>
        rw [hlj, Option.map_some', Option.some_inj] at h1
        intro hmem
        rw [← h1] at hmem
        simp only [List.mem_map, List.mem_filter] at hmem
        obtain ⟨x, ⟨hxm, hxac⟩, hxe⟩ := hmem
        by_cases hxr : x = r
        · rw [if_pos hxr] at hxe
          subst hxe
          rw [isAdviceB, hdead] at hl
          exact absurd hl (by simp)
        · rw [if_neg hxr] at hxe
          subst hxe
          exact hnoref jd m hlj hxm

lemma NotRef_processAC {σ σ1 : Circuit} {id ac : Nat}
    (h : NotRef σ id) (hp : processAC σ ac = some σ1) : NotRef σ1 id := by
  rcases processAC_cases σ ac σ1 hp with ⟨_, rfl⟩ |
    ⟨n, l, r, _, hacl, _, hk, hal, _, rfl⟩
  · exact h
  · exact NotRef_transformAC hacl hk hal h

lemma BA_processAC_of_ne {σ σ1 : Circuit} {id ac : Nat}
    (hba : BA σ id = true) (hne : id ≠ ac) (hp : processAC σ ac = some σ1) :
    BA σ1 id = true := by
  rcases processAC_cases σ ac σ1 hp with ⟨_, rfl⟩ |
    ⟨n, l, r, _, hacl, _, hk, hal, har, rfl⟩
  · exact hba
  · obtain ⟨m, a, b, hlm, hkm, hops, ha, hb⟩ := BA_true_elim hba
    have hane : a ≠ ac := advice_ne_of_ac_kind ha hacl hk
    have hbne : b ≠ ac := advice_ne_of_ac_kind hb hacl hk
    have hlne : l ≠ ac := advice_ne_of_ac_kind hal hacl hk
    have hlookup1 : cLookup (transformAC σ ac l r) id
        = some ⟨m.kind, [if a = r then l else a, if b = r then l else b]⟩ := by
      rw [cLookup_transformAC, if_neg hne, hlm, Option.map_some']
      congr 2
      rw [hops, List.filter_cons_of_pos (by simpa using hane),
        List.filter_cons_of_pos (by simpa using hbne)]
      simp
    have hadv : ∀ x, isAdviceB σ x = true → x ≠ ac →
        isAdviceB (transformAC σ ac l r) (if x = r then l else x) = true := by
      intro x hx hxac
      by_cases hxr : x = r
      · rw [if_pos hxr, isAdviceB_transformAC, if_neg hlne]
        exact hal
      · rw [if_neg hxr, isAdviceB_transformAC, if_neg hxac]
        exact hx
    exact BA_true_intro hlookup1 hkm rfl (hadv a ha hane) (hadv b hb hbne)

lemma runOn_some_cons {σ σ' : Circuit} {ac : Nat} {rest : List Nat}
    (h : runOn σ (ac :: rest) = some σ') :
    ∃ σ1, processAC σ ac = some σ1 ∧ runOn σ1 rest = some σ' := by
  rw [runOn] at h
  cases hp : processAC σ ac with
  | none => rw [hp] at h; simp at h
  | some σ1 =>
    rw [hp, Option.some_bind] at h
    exact ⟨σ1, rfl, h⟩

lemma runOn_NotRef {id : Nat} :
    ∀ (S : List Nat) (σ σ' : Circuit), runOn σ S = some σ' →
      NotRef σ id → NotRef σ' id := by
  intro S
  induction S with
  | nil =>
    intro σ σ' h hn
    rw [runOn, Option.some_inj] at h
    exact h ▸ hn
  | cons ac rest ih =>
    intro σ σ' h hn
    obtain ⟨σ1, hp, hrest⟩ := runOn_some_cons h
    exact ih σ1 σ' hrest (NotRef_processAC hn hp)

lemma runOn_final_NotBA2 :
    ∀ (S : List Nat) (σ σ' : Circuit), runOn σ S = some σ' →
      (∀ id, ACLive σ id → id ∈ S ∨ NotBA2 σ id) →
      ∀ id, ACLive σ' id → NotBA2 σ' id := by
  intro S
  induction S with
  | nil =>
    intro σ σ' h hinv id hlive
    rw [runOn, Option.some_inj] at h
    subst h
    rcases hinv id hlive with hmem | hnb
    · simp at hmem
    · exact hnb
  | cons ac rest ih =>
    intro σ σ' h hinv id hlive
    obtain ⟨σ1, hp, hrest⟩ := runOn_some_cons h
    refine ih σ1 σ' hrest ?_ id hlive
    intro jd hlive1
    have hlivejd := ACLive_processAC_rev hp hlive1
    rcases hinv jd hlivejd with hmem | hnb
    · rw [List.mem_cons] at hmem
      rcases hmem with rfl | hmem
      · right
        rcases processAC_cases σ jd σ1 hp with ⟨hba, rfl⟩ |
          ⟨n, l, r, _, _, _, _, _, _, rfl⟩
        · exact NotBA2_processAC (processAC_skip_NotBA2 hp hba hlivejd) hp
        · obtain ⟨n1, h1, _⟩ := hlive1
          rw [cLookup_transformAC, if_pos rfl] at h1
          exact absurd h1 (by simp)
      · exact Or.inl hmem
    · exact Or.inr (NotBA2_processAC hnb hp)

lemma runOn_BA_destroyed {id : Nat} :
    ∀ (S : List Nat) (σ σ' : Circuit), runOn σ S = some σ' →
      id ∈ S → BA σ id = true → NotRef σ' id := by
  intro S
  induction S with
  | nil => intro σ σ' _ hmem; simp at hmem
  | cons ac rest ih =>
    intro σ σ' h hmem hba
    obtain ⟨σ1, hp, hrest⟩ := runOn_some_cons h
    by_cases hid : id = ac
    · subst hid
      rcases processAC_cases σ id σ1 hp with ⟨hba', _⟩ |
        ⟨n, l, r, _, hacl, _, hk, hal, _, rfl⟩
      · rw [hba'] at hba; exact absurd hba (by simp)
      · refine runOn_NotRef rest _ _ hrest ⟨?_, ?_⟩
        · rw [cLookup_transformAC, if_pos rfl]
        · intro jd n1 h1
          rw [cLookup_transformAC] at h1
          by_cases hjd : jd = id
          · rw [if_pos hjd] at h1
            exact absurd h1 (by simp)
          · rw [if_neg hjd] at h1
            cases hlj : cLookup σ jd with
            | none => rw [hlj] at h1; exact absurd h1 (by simp)
            | some m =>
              rw [hlj, Option.map_some', Option.some_inj] at h1
              intro hmem1
              rw [← h1] at hmem1
              simp only [List.mem_map, List.mem_filter] at hmem1
              obtain ⟨x, ⟨hxm, hxac⟩, hxe⟩ := hmem1
              by_cases hxr : x = r
              · rw [if_pos hxr] at hxe
                exact absurd hxe (advice_ne_of_ac_kind hal hacl hk)
              · rw [if_neg hxr] at hxe
                subst hxe
                simpa using hxac
    · rw [List.mem_cons] at hmem
      rcases hmem with rfl | hmem
      · exact absurd rfl hid
      · exact ih σ1 σ' hrest hmem (BA_processAC_of_ne hba hid hp)

lemma processAC_id_of_not_BA {σ σ1 : Circuit} {ac : Nat}
    (hp : processAC σ ac = some σ1) (hba : BA σ ac = false) : σ1 = σ := by
  rcases processAC_cases σ ac σ1 hp with ⟨_, h⟩ | ⟨n, l, r, hba', _⟩
  · exact h
  · rw [hba] at hba'
    exact absurd hba' (by simp)

lemma acSnapshot_sublist (σ : Circuit) :
    List.Sublist (acSnapshot σ) (σ.map Prod.fst) := by
  rw [acSnapshot]
  induction σ with
  | nil => simp
  | cons e t ih =>
    rw [List.filterMap_cons, List.map_cons]
    by_cases hk : e.2.kind = .adviceConstraint
    · rw [if_pos hk]
      exact List.Sublist.cons₂ e.1 ih
    · rw [if_neg hk]
      exact List.Sublist.cons e.1 ih

lemma mem_acSnapshot {σ : Circuit} {id : Nat} (h : ACLive σ id) :
    id ∈ acSnapshot σ := by
  obtain ⟨n, hl, hk⟩ := h
  have hmem := cLookup_mem hl
  rw [acSnapshot]
  exact List.mem_filterMap.mpr ⟨(id, n), hmem, by simp [hk]⟩

lemma BA_false_transformAC {σ : Circuit} {id0 l r jd : Nat} {n0 : CNode}
    (hacn : cLookup σ id0 = some n0) (hk : n0.kind = .adviceConstraint)
    (hr : isAdviceB σ r = true)
    (h2 : ∀ e ∈ σ, e.2.kind = .adviceConstraint → e.2.operands.length = 2)
    (huniq : ∀ q, BA σ q = true → q = id0)
    (hjd : jd ≠ id0) :
    BA (transformAC σ id0 l r) jd = false := by
  cases hb : BA (transformAC σ id0 l r) jd with
  | false => rfl
  | true =>
    exfalso
    obtain ⟨n1, a, b, hlook1, hk1, hops1, ha1, hb1⟩ := BA_true_elim hb
    rw [cLookup_transformAC, if_neg hjd] at hlook1
    cases hlj : cLookup σ jd with
    | none => rw [hlj] at hlook1; exact absurd hlook1 (by simp)
    | some m =>
      rw [hlj, Option.map_some', Option.some_inj] at hlook1
      have hkm : m.kind = .adviceConstraint := by rw [← hlook1] at hk1; exact hk1
      have hlen2 := h2 (jd, m) (cLookup_mem hlj) hkm
      obtain ⟨x, y, hxy⟩ := List.length_eq_two.mp hlen2
      have hopst : ((m.operands.filter fun z => decide (z ≠ id0)).map
          fun z => if z = r then l else z) = [a, b] := by
        rw [← hlook1] at hops1
        exact hops1
      have hflen : (m.operands.filter fun z => decide (z ≠ id0)).length = 2 := by
        have hcl := congrArg List.length hopst
        rw [List.length_map] at hcl
        exact hcl
      rw [hxy] at hflen hopst
      have hx : x ≠ id0 := by
        intro hc
        rw [List.filter_cons_of_neg (by simp [hc])] at hflen
        have hle := List.length_filter_le (fun z => decide (z ≠ id0)) [y]
        rw [hflen] at hle
        simp at hle
      have hy : y ≠ id0 := by
        intro hc
        rw [List.filter_cons_of_pos (by simp [hx]),
          List.filter_cons_of_neg (by simp [hc]), List.filter_nil] at hflen
        simp at hflen
      rw [List.filter_cons_of_pos (by simp [hx]),
        List.filter_cons_of_pos (by simp [hy]), List.filter_nil,
        List.map_cons, List.map_cons, List.map_nil] at hopst
      have hax : (if x = r then l else x) = a := (List.cons_eq_cons.mp hopst).1
      have hby : (if y = r then l else y) = b :=
        (List.cons_eq_cons.mp (List.cons_eq_cons.mp hopst).2).1
      have hadv : ∀ z w, (if z = r then l else z) = w → z ≠ id0 →
          isAdviceB (transformAC σ id0 l r) w = true → isAdviceB σ z = true := by
        intro z w hw hz hwt
        by_cases hzr : z = r
        · rw [hzr]
          exact hr
        · rw [if_neg hzr] at hw
          subst hw
          rw [isAdviceB_transformAC, if_neg hz] at hwt
          exact hwt
      have hxadv := hadv x a hax hx ha1
      have hyadv := hadv y b hby hy hb1
      exact hjd (huniq jd (BA_true_intro hlj hkm hxy hxadv hyadv))

lemma runOn_skip_front {σ σ' : Circuit} {T : List Nat} :
    ∀ S1 : List Nat, runOn σ (S1 ++ T) = some σ' →
      (∀ ac ∈ S1, BA σ ac = false) → runOn σ T = some σ' := by
  intro S1
  induction S1 with
  | nil => intro h _; exact h
  | cons ac rest ih =>
    intro h hba
    rw [List.cons_append] at h
    obtain ⟨σ1, hp, hrest⟩ := runOn_some_cons h
    have hσ1 := processAC_id_of_not_BA hp (hba ac (List.mem_cons_self _ _))
    subst hσ1
    exact ih hrest fun a ha => hba a (List.mem_cons_of_mem _ ha)

lemma runOn_unique_transform {σ0 σ' : Circuit} {id0 l r : Nat} {n0 : CNode}
    (hnd : (acSnapshot σ0).Nodup)
    (h2 : ∀ e ∈ σ0, e.2.kind = .adviceConstraint → e.2.operands.length = 2)
    (huniq : ∀ q, BA σ0 q = true → q = id0)
    (hba : BA σ0 id0 = true)
    (hl0 : cLookup σ0 id0 = some n0) (hops : n0.operands = [l, r])
    (hrun : runMergeAdvicePass σ0 = some σ') :
    σ' = transformAC σ0 id0 l r := by
  obtain ⟨nb, a, b, hlb, hkb, hopsb, hal, har⟩ := BA_true_elim hba
  have hnb : nb = n0 := by
    rw [hl0] at hlb
    exact (Option.some_inj.mp hlb).symm
  subst hnb
  have hab : a = l ∧ b = r := by
    rw [hops] at hopsb
    exact ⟨(List.cons_eq_cons.mp hopsb).1.symm,
      (List.cons_eq_cons.mp (List.cons_eq_cons.mp hopsb).2).1.symm⟩
  rw [hab.1] at hal
  rw [hab.2] at har
  have hmem := mem_acSnapshot ⟨nb, hl0, hkb⟩
  obtain ⟨S1, S2, hsplit⟩ := List.append_of_mem hmem
  rw [runMergeAdvicePass, hsplit] at hrun
  have hndsplit : (S1 ++ id0 :: S2).Nodup := hsplit ▸ hnd
  have hdisj : S1.Disjoint (id0 :: S2) := List.disjoint_of_nodup_append hndsplit
  have hid0S2 : id0 ∉ S2 :=
    (List.nodup_cons.mp (List.nodup_append.mp hndsplit).2.1).1
  have hstep : runOn σ0 (id0 :: S2) = some σ' := by
    refine runOn_skip_front S1 hrun ?_
    intro ac hac
    cases hb : BA σ0 ac with
    | false => rfl
    | true =>
      exfalso
      have hacid := huniq ac hb
      subst hacid
      exact hdisj hac (List.mem_cons_self _ _)
  obtain ⟨σ1, hp, hrest⟩ := runOn_some_cons hstep
  rcases processAC_cases σ0 id0 σ1 hp with ⟨hbf, _⟩ |
    ⟨n, a1, b1, _, hln, hopsn, _, _, _, hσ1⟩
  · rw [hba] at hbf
    exact absurd hbf (by simp)
  · have hnn : n = nb := by
      rw [hl0] at hln
      exact (Option.some_inj.mp hln).symm
    subst hnn
    have hlr : a1 = l ∧ b1 = r := by
      rw [hops] at hopsn
      exact ⟨(List.cons_eq_cons.mp hopsn).1.symm,
        (List.cons_eq_cons.mp (List.cons_eq_cons.mp hopsn).2).1.symm⟩
    rw [hlr.1, hlr.2] at hσ1
    subst hσ1
    rw [← List.append_nil S2] at hrest
    have hfin := runOn_skip_front S2 hrest ?hba2
    · rw [runOn] at hfin
      exact (Option.some_inj.mp hfin).symm
    case hba2 =>
      intro ac hac
      exact BA_false_transformAC hl0 hkb har h2 huniq
        (fun hc => hid0S2 (hc ▸ hac))

def c7sigma : Circuit :=
  [(1, ⟨.advice, []⟩), (2, ⟨.advice, []⟩), (3, ⟨.advice, []⟩),
   (10, ⟨.adviceConstraint, [1, 2]⟩), (11, ⟨.adviceConstraint, [3, 1]⟩),
   (20, ⟨.otherOp, [2]⟩)]

/-- **C7 counterexample.** In the chain `AC 10 = AdviceConstraint(Advice 1,
Advice 2)`, `AC 11 = AdviceConstraint(Advice 3, Advice 1)`, node `20` is a
former user of constraint 10's second operand (`Advice 2`).  After the pass,
node 20's operand is `3` — not constraint 10's first operand `1` — because the
later merge of constraint 11 redirected uses of `1` to `3`.  So it is not true
that, for every advice-on-both-sides constraint, every former use of its second
operand ends up referencing its first operand. -/
theorem merge_transitive_advices_chain_counterexample :
    BA c7sigma 10 = true
    ∧ cLookup c7sigma 10 = some ⟨.adviceConstraint, [1, 2]⟩
    ∧ cLookup c7sigma 20 = some ⟨.otherOp, [2]⟩
    ∧ runMergeAdvicePass c7sigma
        = some [(1, ⟨.advice, []⟩), (2, ⟨.advice, []⟩), (3, ⟨.advice, []⟩),
                (20, ⟨.otherOp, [3]⟩)]
    ∧ (⟨.otherOp, [3]⟩ : CNode) ≠ ⟨.otherOp, [1]⟩ := by
  decide

/-- **C7 (amended).** When `merge-transitive-advices` runs to completion:
(i) no surviving `AdviceConstraint` has an `Advice` on both sides; (ii) every
advice-on-both-sides constraint of the input is destroyed — absent from the
result and an operand of no node; (iii) when the input has a *unique*
advice-on-both-sides constraint `AdviceConstraint(l, r)` (keys distinct, every
`AdviceConstraint` binary), the pass performs exactly that one
destroy-detach-redirect transformation, so every other node's operand list is
its old list with the constraint dropped and every former use of the second
operand `r` replaced by the first operand `l`.  The original claim's stronger
clause — that this per-constraint redirection-to-`l` description holds for
*every* such constraint simultaneously — fails when constraints chain. -/
theorem merge_transitive_advices_pass (σ0 σ' : Circuit)
    (hrun : runMergeAdvicePass σ0 = some σ') :
    (∀ id, ACLive σ' id → NotBA2 σ' id)
    ∧ (∀ id0, BA σ0 id0 = true → NotRef σ' id0)
    ∧ (∀ id0 n0 l r,
        (σ0.map Prod.fst).Nodup →
        (∀ e ∈ σ0, e.2.kind = OpKind.adviceConstraint → e.2.operands.length = 2) →
        (∀ q, BA σ0 q = true → q = id0) →
        BA σ0 id0 = true → cLookup σ0 id0 = some n0 → n0.operands = [l, r] →
        σ' = transformAC σ0 id0 l r
          ∧ ∀ jd m, jd ≠ id0 → cLookup σ0 jd = some m →
              cLookup σ' jd = some ⟨m.kind,
                (m.operands.filter fun x => decide (x ≠ id0)).map
                  fun x => if x = r then l else x⟩) := by
  have hrun' : runOn σ0 (acSnapshot σ0) = some σ' := hrun
  refine ⟨?_, ?_, ?_⟩
  · intro id hlive
    refine runOn_final_NotBA2 (acSnapshot σ0) σ0 σ' hrun' ?_ id hlive
    intro jd hl
    exact Or.inl (mem_acSnapshot hl)
  · intro id0 hba
    have hlive : ACLive σ0 id0 := by
      obtain ⟨n, a, b, hl, hk, _⟩ := BA_true_elim hba
      exact ⟨n, hl, hk⟩
    exact runOn_BA_destroyed (acSnapshot σ0) σ0 σ' hrun' (mem_acSnapshot hlive) hba
  · intro id0 n0 l r hnd h2 huniq hba hl0 hops
    have hsnd : (acSnapshot σ0).Nodup := (acSnapshot_sublist σ0).nodup hnd
    have heq := runOn_unique_transform hsnd h2 huniq hba hl0 hops hrun
    refine ⟨heq, ?_⟩
    intro jd m hjd hlm
    rw [heq, cLookup_transformAC, if_neg hjd, hlm, Option.map_some']

def c7res : Circuit :=
  [(1, ⟨.advice, []⟩), (2, ⟨.advice, []⟩), (20, ⟨.otherOp, [1]⟩)]

/-- The amended pass theorem instantiated on a concrete circuit with a single
advice-on-both-sides constraint `10 = AdviceConstraint(Advice 1, Advice 2)` and
one user `20` of `Advice 2`. -/
theorem merge_transitive_advices_pass_witness :
    runMergeAdvicePass
      [(1, ⟨.advice, []⟩), (2, ⟨.advice, []⟩),
       (10, ⟨.adviceConstraint, [1, 2]⟩), (20, ⟨.otherOp, [2, 10]⟩)]
      = some [(1, ⟨.advice, []⟩), (2, ⟨.advice, []⟩), (20, ⟨.otherOp, [1]⟩)]
    ∧ ((∀ id, ACLive [(1, (⟨.advice, []⟩ : CNode)), (2, ⟨.advice, []⟩),
          (20, ⟨.otherOp, [1]⟩)] id →
        NotBA2 [(1, (⟨.advice, []⟩ : CNode)), (2, ⟨.advice, []⟩),
          (20, ⟨.otherOp, [1]⟩)] id)
      ∧ (∀ id0, BA [(1, (⟨.advice, []⟩ : CNode)), (2, ⟨.advice, []⟩),
            (10, ⟨.adviceConstraint, [1, 2]⟩), (20, ⟨.otherOp, [2, 10]⟩)] id0 = true →
          NotRef [(1, (⟨.advice, []⟩ : CNode)), (2, ⟨.advice, []⟩),
            (20, ⟨.otherOp, [1]⟩)] id0)
      ∧ (∀ id0 n0 l r,
          (([(1, (⟨.advice, []⟩ : CNode)), (2, ⟨.advice, []⟩),
            (10, ⟨.adviceConstraint, [1, 2]⟩),
            (20, ⟨.otherOp, [2, 10]⟩)] : Circuit).map Prod.fst).Nodup →
          (∀ e ∈ ([(1, (⟨.advice, []⟩ : CNode)), (2, ⟨.advice, []⟩),
            (10, ⟨.adviceConstraint, [1, 2]⟩),
            (20, ⟨.otherOp, [2, 10]⟩)] : Circuit),
            e.2.kind = OpKind.adviceConstraint → e.2.operands.length = 2) →
          (∀ q, BA [(1, (⟨.advice, []⟩ : CNode)), (2, ⟨.advice, []⟩),
            (10, ⟨.adviceConstraint, [1, 2]⟩),
            (20, ⟨.otherOp, [2, 10]⟩)] q = true → q = id0) →
          BA [(1, (⟨.advice, []⟩ : CNode)), (2, ⟨.advice, []⟩),
            (10, ⟨.adviceConstraint, [1, 2]⟩),
            (20, ⟨.otherOp, [2, 10]⟩)] id0 = true →
          cLookup [(1, (⟨.advice, []⟩ : CNode)), (2, ⟨.advice, []⟩),
            (10, ⟨.adviceConstraint, [1, 2]⟩),
            (20, ⟨.otherOp, [2, 10]⟩)] id0 = some n0 →
          n0.operands = [l, r] →
          [(1, (⟨.advice, []⟩ : CNode)), (2, ⟨.advice, []⟩),
            (20, ⟨.otherOp, [1]⟩)]
            = transformAC [(1, (⟨.advice, []⟩ : CNode)), (2, ⟨.advice, []⟩),
                (10, ⟨.adviceConstraint, [1, 2]⟩),
                (20, ⟨.otherOp, [2, 10]⟩)] id0 l r
            ∧ ∀ jd m, jd ≠ id0 →
                cLookup [(1, (⟨.advice, []⟩ : CNode)), (2, ⟨.advice, []⟩),
                  (10, ⟨.adviceConstraint, [1, 2]⟩),
                  (20, ⟨.otherOp, [2, 10]⟩)] jd = some m →
                cLookup ([(1, (⟨.advice, []⟩ : CNode)), (2, ⟨.advice, []⟩),
                  (20, ⟨.otherOp, [1]⟩)] : Circuit) jd = some ⟨m.kind,
                  (m.operands.filter fun x => decide (x ≠ id0)).map
                    fun x => if x = r then l else x⟩)) :=
  ⟨rfl, merge_transitive_advices_pass
    [(1, ⟨.advice, []⟩), (2, ⟨.advice, []⟩),
     (10, ⟨.adviceConstraint, [1, 2]⟩), (20, ⟨.otherOp, [2, 10]⟩)]
    [(1, ⟨.advice, []⟩), (2, ⟨.advice, []⟩), (20, ⟨.otherOp, [1]⟩)]
    rfl⟩

end Circuitous
